import Mathlib

/-! # vcr: scheduling core

A verification development for the scheduling core of `vcr`
(`internal/recording.go`, `internal/app.go`, `internal/ports/requests.go`,
`internal/config/config.go`).

Instants and spans are integers counted in nanoseconds.  An instant is the
number of nanoseconds elapsed since Go's zero instant `0001-01-01T00:00:00Z`,
so that `IsZero` is the test against `0`.
-/

namespace Vcr

/-! ## Data model -/

/-- An instant (`time.Time`), in nanoseconds since `0001-01-01T00:00:00Z`. -/
abbrev Time := Int

/-- A span (`time.Duration`), in nanoseconds. -/
abbrev Duration := Int

/-- The zero instant test `Time.IsZero`. -/
def Time.IsZero (t : Time) : Bool := decide (t = 0)

/-- Error values.  Sentinels are compared by identity in Go, so each sentinel
of the repository is a constructor of its own; `external` stands for an error
value built outside the repository (the standard library, the validator, the
runtime, the store) and `wrapped` for `fmt.Errorf("%w: %v", inner, detail)`. -/
inductive Error where
  | ErrValidationError : Error
  | ErrNotFound : Error
  | ErrContainerNotFound : Error
  | pastDate : Error
  | external (msg : String) : Error
  | wrapped (inner : Error) (detail : String) : Error
deriving DecidableEq, Repr

/-- The chain walk of `errors.Is(err, target)`. -/
def errorsIs : Error → Error → Bool
  | Error.wrapped inner detail, target =>
      decide (Error.wrapped inner detail = target) || errorsIs inner target
  | e, target => decide (e = target)

/-- The Task Record `config.Programming`. -/
structure Programming where
  Url : String
  Name : String
  Date : Time
  Until : Option Time
deriving DecidableEq, Repr

/-- The method `Programming.IsUpcoming`, with the reading of `time.Now()` passed in. -/
def Programming.IsUpcoming (p : Programming) (now : Time) : Bool :=
  decide (now < p.Date)

/-- The guard `r.programming.Until != nil && !r.programming.Until.IsZero()` of
`Recorder.Schedule`. -/
def Programming.hasStop (p : Programming) : Bool :=
  match p.Until with
  | some u => !Time.IsZero u
  | none => false

/-! ## The lifecycle of one Job: `Recorder.Schedule` and `Recorder.scheduleRun`

`Schedule` runs as three goroutines: the coordinator (the body of `Schedule`),
the start waiter (`scheduleRun` with `r.record`) and, when a stop time is set,
the stop waiter (`scheduleRun` with `r.stop`).  The model is an interleaving
semantics: a state holds one program point per goroutine and the shared
variables, and every action is one step of one goroutine or of the
environment (the clock, the scan loop sending on `done`, the Runtime Port
answering a call). -/

/-- The two waiters launched by `Schedule`. -/
inductive Waiter where
  | start : Waiter
  | stop : Waiter
deriving DecidableEq, Repr

/-- The operation a waiter runs: `r.record` or `r.stop`. -/
inductive Op where
  | record : Op
  | stop : Op
deriving DecidableEq, Repr

/-- Calls on the Runtime Port made by a Job. -/
inductive Call where
  | Run (name : String) : Call
  | FindByName (name : String) : Call
  | KillContainer (id : String) : Call
deriving DecidableEq, Repr

/-- What an execution leaves in its log, oldest entry first. -/
inductive Obs where
  | invoked (op : Op) : Obs
  | call (c : Call) : Obs
  | returned (r : Option Error) : Obs
deriving DecidableEq, Repr

/-- Program points of a waiter goroutine. -/
inductive WaiterPc where
  /-- the goroutine was never launched -/
  | absent : WaiterPc
  /-- launched by `go func()`, `scheduleRun` not yet entered -/
  | launched : WaiterPc
  /-- timer armed, `wg.Add(1)` done, blocked in the `select` -/
  | waiting : WaiterPc
  /-- the call `run()` is made, its first Runtime Port call in flight -/
  | running : WaiterPc
  /-- for `stop` only: `FindByName` returned `id`, `KillContainer` in flight -/
  | killing (id : String) : WaiterPc
  /-- the call of `scheduleRun` returned `err`, blocked on `errChan <- err` -/
  | sending (err : Error) : WaiterPc
  /-- the send on `errChan` was received, goroutine over -/
  | sent (err : Error) : WaiterPc
  /-- the cancelled branch returned nil without calling `run()` -/
  | dropped : WaiterPc
  /-- the call `run()` returned nil, goroutine over -/
  | finished : WaiterPc
deriving DecidableEq, Repr

/-- Program points of the coordinator, the body of `Schedule`. -/
inductive SchedPc where
  /-- the method `Schedule` is called, nothing executed yet -/
  | entry : SchedPc
  /-- goroutines launched, blocked in the `select` -/
  | selecting : SchedPc
  /-- the `<-done` case was taken, `cancel()` not yet called -/
  | gotDone : SchedPc
  /-- the `<-errChan` case was taken with a non-nil error -/
  | gotErr (e : Error) : SchedPc
  /-- a `return r` was reached, the deferred `wg.Done()` is pending -/
  | leaving (r : Option Error) : SchedPc
  /-- the method `Schedule` has returned `r` -/
  | returned (r : Option Error) : SchedPc
deriving DecidableEq, Repr

/-- The state of one Job. -/
structure State where
  now : Time
  sched : SchedPc
  startW : WaiterPc
  stopW : WaiterPc
  /-- the channel `ctx.Done()` is closed -/
  cancelled : Bool
  /-- a receive on `done` can proceed -/
  done : Bool
  startedRecording : Bool
  /-- the counter of `r.wg` -/
  wg : Int
  log : List Obs
deriving DecidableEq, Repr

/-- Steps of the environment and of the three goroutines. -/
inductive Action where
  /-- the clock advances by `d` nanoseconds -/
  | advance (d : Nat) : Action
  /-- the scan loop executes `recording.done <- true` -/
  | signalDone : Action
  /-- the statements `wg.Add(1)`, the `IsUpcoming` test, the `go` statements -/
  | schedEnter : Action
  /-- the coordinator's `select` takes `<-done` -/
  | schedRecvDone : Action
  /-- the coordinator's `select` takes `<-errChan` from waiter `w` -/
  | schedRecvErr (w : Waiter) : Action
  /-- the coordinator calls `cancel()` -/
  | schedCancel : Action
  /-- the deferred `wg.Done()` runs and `Schedule` returns -/
  | schedReturn : Action
  /-- waiter `w` enters `scheduleRun`: timer armed, `wg.Add(1)` -/
  | begin (w : Waiter) : Action
  /-- the `select` of waiter `w` takes `<-timer.C` -/
  | timerFires (w : Waiter) : Action
  /-- the `select` of waiter `w` takes `<-ctx.Done()` -/
  | ctxDone (w : Waiter) : Action
  /-- the call `runtime.Run` answers the start waiter -/
  | runReturns (r : Except Error String) : Action
  /-- the call `runtime.FindByName` answers the stop waiter -/
  | findReturns (r : Except Error String) : Action
  /-- the call `runtime.KillContainer` answers the stop waiter -/
  | killReturns (r : Option Error) : Action

/-- The state in which `Schedule` is called at instant `now`. -/
def State.init (now : Time) : State :=
  { now := now, sched := SchedPc.entry, startW := WaiterPc.absent,
    stopW := WaiterPc.absent, cancelled := false, done := false,
    startedRecording := false, wg := 0, log := [] }

/-- The program point of waiter `w`. -/
def State.pc (s : State) : Waiter → WaiterPc
  | Waiter.start => s.startW
  | Waiter.stop => s.stopW

/-- Move waiter `w` to program point `pc`. -/
def State.setPc (s : State) (w : Waiter) (pc : WaiterPc) : State :=
  match w with
  | Waiter.start => { s with startW := pc }
  | Waiter.stop => { s with stopW := pc }

/-- The instant `until` passed to `scheduleRun` for waiter `w`. -/
def deadline (p : Programming) : Waiter → Time
  | Waiter.start => p.Date
  | Waiter.stop => p.Until.getD 0

/-- The operation passed to `scheduleRun` for waiter `w`. -/
def Waiter.op : Waiter → Op
  | Waiter.start => Op.record
  | Waiter.stop => Op.stop

/-- The first Runtime Port call of an operation. -/
def firstCall (p : Programming) : Op → Call
  | Op.record => Call.Run p.Name
  | Op.stop => Call.FindByName p.Name

/-- Waiter `w` calls `run()`. -/
def invoke (p : Programming) (s : State) (w : Waiter) : State :=
  let s1 := s.setPc w WaiterPc.running
  { s1 with log := s1.log ++ [Obs.invoked w.op, Obs.call (firstCall p w.op)] }

/-- Waiter `w` leaves `scheduleRun` with result `r`: the deferred
`timer.Stop(); r.wg.Done()` runs, then the goroutine either ends (nil) or
blocks on `errChan <- err`. -/
def leave (s : State) (w : Waiter) (r : Option Error) (nilPc : WaiterPc) : State :=
  let s1 := { s with wg := s.wg - 1 }
  match r with
  | some e => s1.setPc w (WaiterPc.sending e)
  | none => s1.setPc w nilPc

/-- One step of the Job built from `p`; `none` when the action is not
enabled in `s`. -/
def step (p : Programming) (s : State) : Action → Option State
  | Action.advance d => some { s with now := s.now + (d : Int) }
  | Action.signalDone => some { s with done := true }
  | Action.schedEnter =>
      match s.sched with
      | SchedPc.entry =>
          if p.IsUpcoming s.now then
            some { s with
              wg := s.wg + 1
              sched := SchedPc.selecting
              startW := WaiterPc.launched
              stopW := if p.hasStop then WaiterPc.launched else WaiterPc.absent }
          else
            some { s with wg := s.wg + 1, sched := SchedPc.leaving (some Error.pastDate) }
      | _ => none
  | Action.schedRecvDone =>
      match s.sched with
      | SchedPc.selecting =>
          if s.done then some { s with sched := SchedPc.gotDone } else none
      | _ => none
  | Action.schedRecvErr w =>
      match s.sched, s.pc w with
      | SchedPc.selecting, WaiterPc.sending e =>
          some { s.setPc w (WaiterPc.sent e) with sched := SchedPc.gotErr e }
      | _, _ => none
  | Action.schedCancel =>
      match s.sched with
      | SchedPc.gotDone => some { s with cancelled := true, sched := SchedPc.leaving none }
      | SchedPc.gotErr e => some { s with cancelled := true, sched := SchedPc.leaving (some e) }
      | _ => none
  | Action.schedReturn =>
      match s.sched with
      | SchedPc.leaving r =>
          some { s with wg := s.wg - 1, sched := SchedPc.returned r,
                        log := s.log ++ [Obs.returned r] }
      | _ => none
  | Action.begin w =>
      match s.pc w with
      | WaiterPc.launched => some { s.setPc w WaiterPc.waiting with wg := s.wg + 1 }
      | _ => none
  | Action.timerFires w =>
      match s.pc w with
      | WaiterPc.waiting => if deadline p w ≤ s.now then some (invoke p s w) else none
      | _ => none
  | Action.ctxDone w =>
      match s.pc w with
      | WaiterPc.waiting =>
          if s.cancelled then
            if s.startedRecording then some (invoke p s w)
            else some (leave s w none WaiterPc.dropped)
          else none
      | _ => none
  | Action.runReturns r =>
      match s.startW with
      | WaiterPc.running =>
          match r with
          | Except.error e => some (leave s Waiter.start (some e) WaiterPc.finished)
          | Except.ok _ =>
              some (leave { s with startedRecording := true } Waiter.start none WaiterPc.finished)
      | _ => none
  | Action.findReturns r =>
      match s.stopW with
      | WaiterPc.running =>
          match r with
          | Except.error e => some (leave s Waiter.stop (some e) WaiterPc.finished)
          | Except.ok id =>
              some { s with stopW := WaiterPc.killing id,
                            log := s.log ++ [Obs.call (Call.KillContainer id)] }
      | _ => none
  | Action.killReturns r =>
      match s.stopW with
      | WaiterPc.killing _ => some (leave s Waiter.stop r WaiterPc.finished)
      | _ => none

/-- Run a schedule of actions; `none` as soon as one is not enabled. -/
def exec (p : Programming) (s : State) : List Action → Option State
  | [] => some s
  | a :: rest => (step p s a).bind fun s1 => exec p s1 rest

/-- Number of invocations of `Recorder.stop` in a log. -/
def stopCount (log : List Obs) : Nat := log.count (Obs.invoked Op.stop)

/-- Number of invocations of `Recorder.record` in a log. -/
def recordCount (log : List Obs) : Nat := log.count (Obs.invoked Op.record)

/-- The Runtime Port calls of a log, oldest first. -/
def callsOf : List Obs → List Call
  | [] => []
  | Obs.call c :: rest => c :: callsOf rest
  | _ :: rest => callsOf rest

/-! ## Invariant and scenarios of the lifecycle -/

/-- The waiter has called its operation `run()`. -/
def WaiterPc.ranOp : WaiterPc → Bool
  | WaiterPc.running => true
  | WaiterPc.killing _ => true
  | WaiterPc.sending _ => true
  | WaiterPc.sent _ => true
  | WaiterPc.finished => true
  | _ => false

/-- The waiter is launched and has not yet left its `select`. -/
def WaiterPc.parked : WaiterPc → Bool
  | WaiterPc.launched => true
  | WaiterPc.waiting => true
  | _ => false

/-- The invariant of the lifecycle: what holds in every state reachable from
`State.init`.  Each field relates program points, shared variables, the clock
and the log. -/
structure Inv (p : Programming) (s : State) : Prop where
  stopCnt : stopCount s.log = if s.stopW.ranOp then 1 else 0
  recCnt : recordCount s.log = if s.startW.ranOp then 1 else 0
  calls : s.startW.ranOp = false → s.stopW.ranOp = false → callsOf s.log = []
  runOnly : s.stopW.ranOp = false → ∀ c ∈ callsOf s.log, c = Call.Run p.Name
  started : s.startedRecording = true → s.startW = WaiterPc.finished
  noStop : p.hasStop = false → s.stopW = WaiterPc.absent
  pairedA : s.startW = WaiterPc.absent → s.stopW = WaiterPc.absent
  pairedB : p.hasStop = true → s.stopW = WaiterPc.absent → s.startW = WaiterPc.absent
  stopRan : s.stopW.ranOp = true →
    deadline p Waiter.stop ≤ s.now ∨ (s.startedRecording = true ∧ s.done = true)
  startRan : s.startW.ranOp = true → p.Date ≤ s.now
  canc : s.cancelled = true →
    s.done = true ∨ deadline p Waiter.stop ≤ s.now ∨ ∃ e, s.startW = WaiterPc.sent e
  cancSched : s.cancelled = true → ∃ r, s.sched = SchedPc.leaving r ∨ s.sched = SchedPc.returned r
  dropStart : s.startW = WaiterPc.dropped → s.cancelled = true
  dropStop : s.stopW = WaiterPc.dropped → s.cancelled = true
  gotDone : s.sched = SchedPc.gotDone → s.done = true
  gotErr : ∀ e, s.sched = SchedPc.gotErr e → s.startW = WaiterPc.sent e ∨ s.stopW = WaiterPc.sent e
  ret : ∀ e, (s.sched = SchedPc.leaving (some e) ∨ s.sched = SchedPc.returned (some e)) →
    s.startW = WaiterPc.absent ∨ s.startW = WaiterPc.sent e ∨ s.stopW = WaiterPc.sent e
  entry : s.sched = SchedPc.entry → s.startW = WaiterPc.absent
  live : s.startW = WaiterPc.absent →
    s.sched = SchedPc.entry ∨ ∃ r, s.sched = SchedPc.leaving r ∨ s.sched = SchedPc.returned r
  cancStart : s.cancelled = true → s.startW ≠ WaiterPc.absent

/-- The recording has started and the stop waiter is either still going to pass
its `select` or has called `stop`. -/
def Armed (s : State) : Prop :=
  s.startedRecording = true ∧ (s.stopW.parked = true ∨ s.stopW.ranOp = true)

/-- Both waiters left through the cancelled branch without calling `run()`
and `Schedule` is returning nil. -/
def Quiet (s : State) : Prop :=
  s.startW = WaiterPc.dropped ∧ (s.stopW = WaiterPc.dropped ∨ s.stopW = WaiterPc.absent) ∧
  s.startedRecording = false ∧
  (s.sched = SchedPc.leaving none ∨ s.sched = SchedPc.returned none)

/-- The steps that take a parked stop waiter through its `select` once the
scope is cancelled. -/
def resume : WaiterPc → List Action
  | WaiterPc.launched => [Action.begin Waiter.stop, Action.ctxDone Waiter.stop]
  | WaiterPc.waiting => [Action.ctxDone Waiter.stop]
  | _ => []

/-- A Task Record with start at 10 and stop at 100. -/
def jobA : Programming := { Url := "http://x", Name := "news", Date := 10, Until := some 100 }

/-- A Task Record with start at 10 and no stop time. -/
def jobB : Programming := { Url := "http://x", Name := "news", Date := 10, Until := none }

/-- The method `Schedule` is entered, both waiters arm, the start timer fires and
`runtime.Run` succeeds. -/
def startedRun : List Action :=
  [Action.schedEnter, Action.begin Waiter.start, Action.begin Waiter.stop, Action.advance 10,
   Action.timerFires Waiter.start, Action.runReturns (Except.ok "c1")]

/-- As `startedRun`, for a Job without stop waiter. -/
def startedRunNoStop : List Action :=
  [Action.schedEnter, Action.begin Waiter.start, Action.advance 10,
   Action.timerFires Waiter.start, Action.runReturns (Except.ok "c1")]

/-- The coordinator takes `<-done`, calls `cancel()` and returns. -/
def cancelAndReturn : List Action :=
  [Action.schedRecvDone, Action.schedCancel, Action.schedReturn]

/-- The signal on `done` arrives at instant 5 and the coordinator and both
waiters react before the clock moves on. -/
def cancelledEarly : List Action :=
  [Action.schedEnter, Action.begin Waiter.start, Action.begin Waiter.stop, Action.advance 5,
   Action.signalDone, Action.schedRecvDone, Action.schedCancel,
   Action.ctxDone Waiter.start, Action.ctxDone Waiter.stop]

/-- The method `Schedule` is entered, both waiters arm, the clock reaches instant 5. -/
def armedRun : List Action :=
  [Action.schedEnter, Action.begin Waiter.start, Action.begin Waiter.stop, Action.advance 5]

/-- The clock reaches the start time before the coordinator is scheduled:
the start waiter takes `<-timer.C`, and only then the coordinator reacts. -/
def lateReaction : List Action :=
  [Action.advance 5, Action.timerFires Waiter.start, Action.runReturns (Except.ok "c1"),
   Action.schedRecvDone, Action.schedCancel, Action.schedReturn,
   Action.ctxDone Waiter.stop, Action.findReturns (Except.ok "c1"), Action.killReturns none]

/-- A Task Record with start at 1240 and stop at 640, as `ToProgramming` builds
it at instant 1000 from a start of 240 and an end of minus 600. -/
def jobC : Programming := { Url := "http://x", Name := "news", Date := 1240, Until := some 640 }

/-- From `Schedule` called at instant 1000 with the stop time already passed:
the stop waiter takes `<-timer.C` at once and `FindByName` finds no
container. -/
def stopFiresFirst : List Action :=
  [Action.schedEnter, Action.begin Waiter.start, Action.begin Waiter.stop,
   Action.timerFires Waiter.stop,
   Action.findReturns (Except.error Error.ErrContainerNotFound)]

/-- The coordinator takes the error of the stop waiter, calls `cancel()` and
returns it; the start waiter leaves through the cancelled branch. -/
def errorAndReturn : List Action :=
  [Action.schedRecvErr Waiter.stop, Action.schedCancel, Action.schedReturn,
   Action.ctxDone Waiter.start]

/-! ## The scan loop `Vcr.ControlLoop` -/

/-- The largest `time.Duration`. -/
def maxDuration : Duration := 9223372036854775807

/-- The smallest `time.Duration`. -/
def minDuration : Duration := -9223372036854775808

/-- Go's `Time.Sub`: the difference `t - u`, saturated to the range of
`time.Duration`. -/
def Time.Sub (t u : Time) : Duration :=
  if maxDuration < t - u then maxDuration
  else if t - u < minDuration then minDuration
  else t - u

/-- The constant `time.Minute`. -/
def Minute : Duration := 60000000000

/-- The per-job part of `Recorder` as built by `NewRecording`; the runtime, the
container configuration and the wait group are those of the `Vcr`. -/
structure Recorder where
  programming : Programming
  startedRecording : Bool
deriving DecidableEq, Repr

/-- The constructor `NewRecording`. -/
def NewRecording (programming : Programming) : Recorder :=
  { programming := programming, startedRecording := false }

/-- The registry value `ScheduledRecording`; `done` is the identity of the
channel made by `make(chan bool, 1)`. -/
structure ScheduledRecording where
  done : Nat
  recording : Recorder
deriving DecidableEq, Repr

/-- The map `Vcr.programmings`. -/
abbrev Registry := String → Option ScheduledRecording

/-- The map assignment `m[name] = s`. -/
def Registry.assign (m : Registry) (name : String) (s : ScheduledRecording) : Registry :=
  fun k => if k = name then some s else m k

/-- The scheduler state: the registry and the goroutines launched with
`go func() { recording.Schedule(s.done) }`, oldest first. -/
structure VcrState where
  programmings : Registry
  jobs : List ScheduledRecording

/-- The state built by `NewVcr`. -/
def NewVcr : VcrState := { programmings := fun _ => none, jobs := [] }

/-- The readings of `time.Now()` taken while one record of the listing is
examined by `Vcr.ControlLoop`: `upcoming` is the reading inside
`programming.IsUpcoming()`, `window` the later one in
`programming.Date.Sub(time.Now())`.  The second is not taken when the first test
fails. -/
structure Readings where
  upcoming : Time
  window : Time
deriving DecidableEq, Repr

/-- The body of the loop over the listing in `Vcr.ControlLoop`, for one record;
`r` holds the two readings of `time.Now()` of the condition. -/
def examine (r : Readings) (a : VcrState) (programming : Programming) : VcrState :=
  if programming.IsUpcoming r.upcoming &&
      decide (Time.Sub programming.Date r.window < 5 * Minute) then
    match a.programmings programming.Name with
    | some _ => a
    | none =>
        let s : ScheduledRecording :=
          { recording := NewRecording programming, done := a.jobs.length }
        { programmings := a.programmings.assign programming.Name s, jobs := a.jobs ++ [s] }
  else a

/-- The loop `for _, programming := range programmings` of `Vcr.ControlLoop`
from the record at position `i` on; `clock i` holds the readings of `time.Now()`
taken for the record at position `i`. -/
def examineFrom (clock : Nat → Readings) : Nat → VcrState → List Programming → VcrState
  | _, a, [] => a
  | i, a, programming :: rest =>
      examineFrom clock (i + 1) (examine (clock i) a programming) rest

/-- The `case <-ticker.C` branch of `Vcr.ControlLoop`: one scan tick over the
answer of `a.db.List()`, with the readings of `time.Now()` taken during it. -/
def scanTick (clock : Nat → Readings) (a : VcrState) :
    Except Error (List Programming) → VcrState
  | Except.error _ => a
  | Except.ok programmings => examineFrom clock 0 a programmings

/-- A sequence of scan ticks, each with its readings of the clock and the
store's answer. -/
def runTicks (a : VcrState) :
    List ((Nat → Readings) × Except Error (List Programming)) → VcrState
  | [] => a
  | (clock, listing) :: rest => runTicks (scanTick clock a listing) rest

/-- The clock that shows the instant `now` at every reading. -/
def frozen (now : Time) : Nat → Readings := fun _ => { upcoming := now, window := now }

/-- A Task Record that starts at instant 10. -/
def recA : Programming := { Url := "http://x", Name := "a", Date := 10, Until := none }

/-- A Task Record that starts five minutes after instant 10. -/
def recB : Programming :=
  { Url := "http://x", Name := "b", Date := 300000000010, Until := none }

/-- A clock that advances by one nanosecond between the readings of one tick
over two records: 9 and 10 for the first record, 10 and 11 for the second. -/
def tickingClock : Nat → Readings
  | 0 => { upcoming := 9, window := 10 }
  | _ => { upcoming := 10, window := 11 }

/-- The task name a Job was created for. -/
def ScheduledRecording.name (s : ScheduledRecording) : String := s.recording.programming.Name

/-- Registry and launched Jobs agree: every Job is the entry under its name,
every entry is a launched Job, and no two Jobs share a name. -/
structure Coherent (a : VcrState) : Prop where
  registered : ∀ j ∈ a.jobs, a.programmings j.name = some j
  launched : ∀ name j, a.programmings name = some j → j ∈ a.jobs ∧ j.name = name
  unique : (a.jobs.map ScheduledRecording.name).Nodup

/-- What one scan tick or a sequence of them may do: entries stay as they are,
the list of Jobs grows at its end, and a new Job had no entry before. -/
structure Grows (a b : VcrState) : Prop where
  keeps : ∀ name j, a.programmings name = some j → b.programmings name = some j
  appended : a.jobs <+: b.jobs
  fresh : ∀ j ∈ b.jobs, j ∈ a.jobs ∨ a.programmings j.name = none

/-! ## The Go standard library functions used by `parseTime` -/

/-- The byte test `'0' <= c && c <= '9'`. -/
def isDigit (c : Char) : Bool := decide ('0'.toNat ≤ c.toNat) && decide (c.toNat ≤ '9'.toNat)

/-- The value `c - '0'` of a digit. -/
def digitVal (c : Char) : Nat := c.toNat - '0'.toNat

/-- The bound `1 << 63` used by the overflow tests of package `time`. -/
def twoTo63 : Nat := 9223372036854775808

/-- Loop of `leadingInt`, with the value read so far. -/
def leadingIntFrom : Nat → List Char → Option (Nat × List Char)
  | x, [] => some (x, [])
  | x, c :: rest =>
      if isDigit c then
        if x > twoTo63 / 10 then none
        else if x * 10 + digitVal c > twoTo63 then none
        else leadingIntFrom (x * 10 + digitVal c) rest
      else some (x, c :: rest)

/-- Go's `leadingInt`: the leading `[0-9]*` of `s` and the rest; `none` on
overflow. -/
def leadingInt (s : List Char) : Option (Nat × List Char) := leadingIntFrom 0 s

/-- Loop of `leadingFraction`: value, number of digits taken into the scale,
overflow flag. -/
def leadingFractionFrom : Nat → Nat → Bool → List Char → Nat × Nat × List Char
  | x, k, _, [] => (x, k, [])
  | x, k, overflow, c :: rest =>
      if isDigit c then
        if overflow then leadingFractionFrom x k true rest
        else if x > (twoTo63 - 1) / 10 then leadingFractionFrom x k true rest
        else if x * 10 + digitVal c > twoTo63 then leadingFractionFrom x k true rest
        else leadingFractionFrom (x * 10 + digitVal c) (k + 1) false rest
      else (x, k, c :: rest)

/-- Go's `leadingFraction`: the leading `[0-9]*` of `s` as a numerator, the
decimal exponent of its scale, and the rest. -/
def leadingFraction (s : List Char) : Nat × Nat × List Char := leadingFractionFrom 0 0 false s

/-- The table `unitMap` of package `time`. -/
def unitMap (u : String) : Option Nat :=
  if u = "ns" then some 1
  else if u = "us" then some 1000
  else if u = "µs" then some 1000
  else if u = "μs" then some 1000
  else if u = "ms" then some 1000000
  else if u = "s" then some 1000000000
  else if u = "m" then some 60000000000
  else if u = "h" then some 3600000000000
  else none

/-- The test that ends a unit: `c == '.' || '0' <= c && c <= '9'`. -/
def endsUnit (c : Char) : Bool := c == '.' || isDigit c

/-- The number of binary digits of `n`; `fuel` bounds the number of halvings. -/
def bitsFrom : Nat → Nat → Nat
  | 0, _ => 0
  | fuel + 1, n => if n = 0 then 0 else bitsFrom fuel (n / 2) + 1

/-- The number of binary digits of `n`. -/
def bitLen (n : Nat) : Nat := bitsFrom n n

/-- A finite `float64` that is not negative: the value `mant * 2 ^ exp`.  The
range of the exponent is not modelled; the values `time.ParseDuration` computes
lie between `1e-19` and `2 ^ 63`. -/
structure Float64 where
  mant : Nat
  exp : Int
deriving DecidableEq, Repr

/-- The numerator of the value as a fraction. -/
def Float64.num (x : Float64) : Nat :=
  if 0 ≤ x.exp then x.mant * 2 ^ x.exp.toNat else x.mant

/-- The denominator of the value as a fraction. -/
def Float64.den (x : Float64) : Nat :=
  if 0 ≤ x.exp then 1 else 2 ^ (-x.exp).toNat

/-- The multiple of `2 ^ e` nearest to `n / d * 2 ^ e`, a tie going to the even
multiple. -/
def Float64.round (n d : Nat) (e : Int) : Float64 :=
  if 2 * (n % d) > d ∨ (2 * (n % d) = d ∧ n / d % 2 = 1) then
    { mant := n / d + 1, exp := e }
  else { mant := n / d, exp := e }

/-- The `float64` nearest to `a / b`, ties to even, as IEEE 754 arithmetic
rounds every result: the exponent is chosen so that the significand has 53
binary digits. -/
def Float64.nearest (a b : Nat) : Float64 :=
  let e : Int := (bitLen a : Int) - (bitLen b : Int) - 53
  let n := if 0 ≤ e then a else a * 2 ^ (-e).toNat
  let d := if 0 ≤ e then b * 2 ^ e.toNat else b
  if n / d < 2 ^ 53 then Float64.round n d e else Float64.round n (2 * d) (e + 1)

/-- The conversion `float64(n)` of an unsigned integer. -/
def Float64.ofNat (n : Nat) : Float64 := Float64.nearest n 1

/-- The product `x * y` in `float64`. -/
def Float64.mul (x y : Float64) : Float64 :=
  Float64.nearest (x.num * y.num) (x.den * y.den)

/-- The quotient `x / y` in `float64`. -/
def Float64.div (x y : Float64) : Float64 :=
  Float64.nearest (x.num * y.den) (x.den * y.num)

/-- The conversion `uint64(x)`: the fraction is dropped. -/
def Float64.toNat (x : Float64) : Nat := x.num / x.den

/-- The `scale` of `leadingFraction` after `k` digits: it starts at 1 and
`scale *= 10` is executed for every digit taken. -/
def scaleOf : Nat → Float64
  | 0 => Float64.ofNat 1
  | k + 1 => (scaleOf k).mul (Float64.ofNat 10)

/-- The term `uint64(float64(f) * (float64(unit) / scale))` of
`time.ParseDuration`, `scale` having been multiplied by ten `k` times. -/
def fractionOfUnit (f unit k : Nat) : Nat :=
  ((Float64.ofNat f).mul ((Float64.ofNat unit).div (scaleOf k))).toNat

/-- One round of the loop `for s != ""` of `time.ParseDuration`, with the sum
`d` so far: a number, an optional fraction and a unit are consumed; the result
is the rest of the input and the new sum, `none` for each error return.  The
fraction `f/scale` of a unit is computed in `float64` as in the source.  The
sum is a `uint64` and wraps. -/
def durationRound (s : List Char) (d : Nat) : Option (List Char × Nat) :=
  match s with
  | [] => none
  | c :: cs =>
      if !endsUnit c then none
      else
        match leadingInt (c :: cs) with
        | none => none
        | some (v, s1) =>
            let pre := (c :: cs).length != s1.length
            let frac : Nat × Nat × List Char × Bool :=
              match s1 with
              | '.' :: s2 =>
                  let r := leadingFraction s2
                  (r.1, r.2.1, r.2.2, s2.length != r.2.2.length)
              | _ => (0, 0, s1, false)
            if !pre && !frac.2.2.2 then none
            else
              let u := frac.2.2.1.takeWhile fun x => !endsUnit x
              let s3 := frac.2.2.1.dropWhile fun x => !endsUnit x
              if u.isEmpty then none
              else
                match unitMap (String.mk u) with
                | none => none
                | some unit =>
                    if v > twoTo63 / unit then none
                    else
                      let v2 := if frac.1 > 0 then v * unit + fractionOfUnit frac.1 unit frac.2.1
                                else v * unit
                      if decide (frac.1 > 0) && decide (v2 > twoTo63) then none
                      else if (d + v2) % (2 * twoTo63) > twoTo63 then none
                      else some (s3, (d + v2) % (2 * twoTo63))

/-- The loop `for s != ""` of `time.ParseDuration`; every round consumes at
least one character, so the length of the input is enough fuel. -/
def parseDurationLoop : Nat → List Char → Nat → Option Nat
  | _, [], d => some d
  | 0, _ :: _, _ => none
  | fuel + 1, c :: cs, d =>
      match durationRound (c :: cs) d with
      | none => none
      | some (s3, d1) => parseDurationLoop fuel s3 d1

/-- The message of the errors of `time.ParseDuration`. -/
def invalidDuration (orig : String) : Error := Error.external ("time: invalid duration " ++ orig)

/-- The body of `time.ParseDuration` up to the error text: the sign, the
special case `0`, the loop, and the final range test; `none` stands for each
`return 0, errors.New(...)`. -/
def parseDurationValue (orig : String) : Option Duration :=
  let neg := orig.toList.head? == some '-'
  let s := match orig.toList with
    | '-' :: rest => rest
    | '+' :: rest => rest
    | l => l
  if s = ['0'] then some 0
  else if s = [] then none
  else
    match parseDurationLoop s.length s 0 with
    | none => none
    | some d =>
        if neg then some (-(d : Int))
        else if d > twoTo63 - 1 then none
        else some (d : Int)

/-- Go's `time.ParseDuration`. -/
def ParseDuration (orig : String) : Except Error Duration :=
  match parseDurationValue orig with
  | some d => Except.ok d
  | none => Except.error (invalidDuration orig)

/-- Go's `getnum`: one or two digits (exactly two when `fixed`). -/
def getnum : List Char → Bool → Option (Nat × List Char)
  | [], _ => none
  | [c0], fixed =>
      if !isDigit c0 then none
      else if fixed then none
      else some (digitVal c0, [])
  | c0 :: c1 :: rest, fixed =>
      if !isDigit c0 then none
      else if !isDigit c1 then
        if fixed then none else some (digitVal c0, c1 :: rest)
      else some (digitVal c0 * 10 + digitVal c1, rest)

/-- Go's `skip` for a literal of one character that is not a space. -/
def skipChar (c : Char) : List Char → Option (List Char)
  | [] => none
  | x :: rest => if x = c then some rest else none

/-- Go's `isLeap`. -/
def isLeap (year : Nat) : Bool :=
  year % 4 == 0 && (year % 100 != 0 || year % 400 == 0)

/-- Go's `daysIn`. -/
def daysIn (month year : Nat) : Nat :=
  if month = 2 then (if isLeap year then 29 else 28)
  else if month = 4 ∨ month = 6 ∨ month = 9 ∨ month = 11 then 30
  else 31

/-- The table `daysBefore` of package `time`: days of a common year before the
first of `month`. -/
def daysBefore (month : Nat) : Nat :=
  match month with
  | 1 => 0
  | 2 => 31
  | 3 => 59
  | 4 => 90
  | 5 => 120
  | 6 => 151
  | 7 => 181
  | 8 => 212
  | 9 => 243
  | 10 => 273
  | 11 => 304
  | _ => 334

/-- Days from `0001-01-01` to the first of January of `year` in the proleptic
Gregorian calendar; negative for year 0. -/
def daysBeforeYear (year : Nat) : Int :=
  let y : Int := (year : Int) - 1
  365 * y + y / 4 - y / 100 + y / 400

/-- Go's `time.Date(year, month, day, hour, min, sec, nsec, time.UTC)` for
fields in range, as nanoseconds since `0001-01-01T00:00:00Z`. -/
def Date (year month day hour min sec nsec : Nat) : Time :=
  let days : Int :=
    daysBeforeYear year + (daysBefore month : Int) +
      (if isLeap year && decide (3 ≤ month) then 1 else 0) + ((day : Int) - 1)
  ((days * 86400 + (hour : Int) * 3600 + (min : Int) * 60 + (sec : Int)) * 1000000000)
    + (nsec : Int)

/-- Value of a run of digits. -/
def digitsVal (ds : List Char) : Nat := ds.foldl (fun x c => x * 10 + digitVal c) 0

/-- The layout elements `15:04:05` of `time.Parse`: hour (one or two digits),
minute and second (two digits each), and the fractional second that
`time.Parse` accepts after the seconds although the layout has none.  Returns
hour, minute, second, nanosecond and the rest of the input. -/
def parseClock (value : List Char) : Option (Nat × Nat × Nat × Nat × List Char) :=
  match getnum value false with
  | none => none
  | some (hour, v1) =>
      if 24 ≤ hour then none
      else
        match skipChar ':' v1 with
        | none => none
        | some v2 =>
            match getnum v2 true with
            | none => none
            | some (min, v3) =>
                if 60 ≤ min then none
                else
                  match skipChar ':' v3 with
                  | none => none
                  | some v4 =>
                      match getnum v4 true with
                      | none => none
                      | some (sec, v5) =>
                          if 60 ≤ sec then none
                          else
                            match v5 with
                            | sep :: d :: rest =>
                                if (sep == '.' || sep == ',') && isDigit d then
                                  let ds := (d :: rest).takeWhile isDigit
                                  let ds9 := ds.take 9
                                  some (hour, min, sec,
                                    digitsVal ds9 * 10 ^ (9 - ds9.length),
                                    (d :: rest).dropWhile isDigit)
                                else some (hour, min, sec, 0, v5)
                            | _ => some (hour, min, sec, 0, v5)

/-- The error value of a failed `time.Parse`. -/
def parseError (value : String) : Error := Error.external ("parsing time " ++ value)

/-- Go's `time.Parse("15:04:05", value)`: year 0, January 1 are the defaults of
the elements the layout does not have. -/
def parseTimeOfDay (value : String) : Except Error Time :=
  match parseClock value.toList with
  | some (hour, min, sec, nsec, []) => Except.ok (Date 0 1 1 hour min sec nsec)
  | _ => Except.error (parseError value)

/-- The layout elements `2006-01-02T` of `time.Parse`: year (four digits),
month and day (two digits each).  Returns year, month, day and the rest. -/
def parseCalendar (value : List Char) : Option (Nat × Nat × Nat × List Char) :=
  match value with
  | y0 :: y1 :: y2 :: y3 :: v1 =>
      if !(isDigit y0 && isDigit y1 && isDigit y2 && isDigit y3) then none
      else
        match skipChar '-' v1 with
        | none => none
        | some v2 =>
            match getnum v2 true with
            | none => none
            | some (month, v3) =>
                if month = 0 ∨ 12 < month then none
                else
                  match skipChar '-' v3 with
                  | none => none
                  | some v4 =>
                      match getnum v4 true with
                      | none => none
                      | some (day, v5) =>
                          match skipChar 'T' v5 with
                          | none => none
                          | some v6 => some (digitsVal [y0, y1, y2, y3], month, day, v6)
  | _ => none

/-- Go's `time.Parse("2006-01-02T15:04:05", value)`. -/
def parseDateTime (value : String) : Except Error Time :=
  match parseCalendar value.toList with
  | none => Except.error (parseError value)
  | some (year, month, day, v) =>
      match parseClock v with
      | some (hour, min, sec, nsec, []) =>
          if day < 1 ∨ daysIn month year < day then Except.error (parseError value)
          else Except.ok (Date year month day hour min sec nsec)
      | _ => Except.error (parseError value)

/-! ## `internal/ports/requests.go` -/

/-- The function `parseTime`. -/
def parseTime (input : String) (relativeBase : Time) : Except Error Time :=
  match parseDateTime input with
  | Except.ok parsed => Except.ok parsed
  | Except.error _ =>
      match parseTimeOfDay input with
      | Except.ok parsed => Except.ok parsed
      | Except.error _ =>
          match ParseDuration input with
          | Except.ok duration => Except.ok (relativeBase + duration)
          | Except.error err => Except.error err

/-- The request `AddProgrammingRequest`. -/
structure AddProgrammingRequest where
  Url : String
  Name : String
  Date : String
  Until : String
deriving DecidableEq, Repr

/-- The method `AddProgrammingRequest.ToProgramming`, with the reading of
`time.Now()` passed in. -/
def AddProgrammingRequest.ToProgramming (r : AddProgrammingRequest) (now : Time) :
    Except Error Programming :=
  match parseTime r.Date now with
  | Except.error err => Except.error err
  | Except.ok date =>
      if r.Until.length = 0 then
        Except.ok { Url := r.Url, Name := r.Name, Date := date, Until := none }
      else
        match parseTime r.Until date with
        | Except.error err => Except.error err
        | Except.ok parsedUntil =>
            Except.ok { Url := r.Url, Name := r.Name, Date := date, Until := some parsedUntil }

/-! ## `internal/app.go`: `Vcr.AddProgramming` and its collaborators -/

/-- The function `config.Validate` on an `AddProgrammingRequest`, that is the
struct tags `required,url` on `Url`, `required` on `Name` and on `Date` and
`omitempty` on `Until`.  The `url` rule belongs to the validator library and is
passed in as `isURL`.  The result is the text of the validator's error when a
rule fails. -/
def Validate (isURL : String → Bool) (req : AddProgrammingRequest) : Option String :=
  if req.Url.length = 0 then some "Url: required"
  else if !isURL req.Url then some "Url: url"
  else if req.Name.length = 0 then some "Name: required"
  else if req.Date.length = 0 then some "Date: required"
  else none

/-- The store `dbs.MemoryDb`: a map from names to Task Records. -/
abbrev MemoryDb := String → Option Programming

/-- The constructor `dbs.NewMemoryDb`. -/
def NewMemoryDb : MemoryDb := fun _ => none

/-- The method `MemoryDb.Add`: the map assignment, and the nil error. -/
def MemoryDb.Add (d : MemoryDb) (programming : Programming) : MemoryDb × Option Error :=
  (fun k => if k = programming.Name then some programming else d k, none)

/-- Outcome of `Vcr.AddProgramming`: the error it returns and, when the call
`a.db.Add(p)` is made, the record `p` handed to the store. -/
structure AddOutcome where
  err : Option Error
  added : Option Programming
deriving DecidableEq, Repr

/-- The method `Vcr.AddProgramming`; `dbAdd` is the error answered by
`a.db.Add` and `now` the reading of `time.Now()` in `ToProgramming`. -/
def AddProgramming (isURL : String → Bool) (dbAdd : Programming → Option Error) (now : Time)
    (req : AddProgrammingRequest) : AddOutcome :=
  match Validate isURL req with
  | some detail =>
      { err := some (Error.wrapped Error.ErrValidationError detail), added := none }
  | none =>
      match req.ToProgramming now with
      | Except.error err => { err := some err, added := none }
      | Except.ok p => { err := dbAdd p, added := some p }

/-- The status code written by the handler `Webhook.add` of
`internal/ports/http/http_server.go` for the result of `AddProgramming`. -/
def addStatus (err : Option Error) : Nat :=
  match err with
  | none => 200
  | some e => if errorsIs e Error.ErrValidationError then 400 else 500

/-- A string that `parseTime` rejects: none of the three forms parses it. -/
def unparsable (input : String) : Bool :=
  match parseDateTime input, parseTimeOfDay input, ParseDuration input with
  | Except.error _, Except.error _, Except.error _ => true
  | _, _, _ => false

/-- A stand-in for the `url` rule of the validator library, used only to
evaluate concrete requests: the scheme `http` or `https`, then `://`, then a
non-empty rest. -/
def urlRule (s : String) : Bool :=
  match s.toList with
  | 'h' :: 't' :: 't' :: 'p' :: ':' :: '/' :: '/' :: _ :: _ => true
  | 'h' :: 't' :: 't' :: 'p' :: 's' :: ':' :: '/' :: '/' :: _ :: _ => true
  | _ => false

/-- The error answered by `Add` on the store built by `NewMemoryDb`. -/
def memoryAdd (p : Programming) : Option Error := (MemoryDb.Add NewMemoryDb p).2

/-- The digit character of `n`, for `n` below ten. -/
def digitChar (n : Nat) : Char := Char.ofNat ('0'.toNat + n)

/-- The time-of-day `HH:MM:SS` written with two digits per field. -/
def clockString (h m s : Nat) : String :=
  String.mk [digitChar (h / 10), digitChar (h % 10), ':', digitChar (m / 10),
    digitChar (m % 10), ':', digitChar (s / 10), digitChar (s % 10)]

/-- The request of the end-to-end scenario: start in `5m`, end `35m`. -/
def newsReq : AddProgrammingRequest :=
  { Url := "http://x", Name := "news", Date := "5m", Until := "35m" }

/-- A request whose end is the duration `0s`. -/
def zeroLengthReq : AddProgrammingRequest :=
  { Url := "http://x", Name := "news", Date := "5m", Until := "0s" }

/-- A request whose start is no timestamp. -/
def badStartReq : AddProgrammingRequest :=
  { Url := "http://x", Name := "news", Date := "tomorrow", Until := "" }

/-! ## A failing start -/

/-- Number of calls of `runtime.Run` in a log. -/
def runCount (log : List Obs) : Nat :=
  (callsOf log).countP fun c =>
    match c with
    | Call.Run _ => true
    | _ => false

/-- The part of the invariant of the lifecycle that concerns a failing start:
every invocation of `record` makes one call of `Run`, and an error of the start
waiter that the coordinator has received is the one `Schedule` returns. -/
structure StartInv (s : State) : Prop where
  runs : runCount s.log = recordCount s.log
  sentStart : ∀ e, s.startW = WaiterPc.sent e →
    s.sched = SchedPc.gotErr e ∨ s.sched = SchedPc.leaving (some e) ∨
      s.sched = SchedPc.returned (some e)

/-- The error answered by `runtime.Run` in the scenarios below. -/
def runFailed : Error := Error.external "run: container could not be created"

/-- The start timer fires and `Run` is in flight. -/
def runInFlight : List Action :=
  [Action.schedEnter, Action.begin Waiter.start, Action.advance 10,
   Action.timerFires Waiter.start]

/-- With a stop waiter: the start timer fires at 10 and `Run` is still in
flight when the clock reaches the stop time 100 and the stop timer fires. -/
def stopDuringRun : List Action :=
  [Action.schedEnter, Action.begin Waiter.start, Action.begin Waiter.stop, Action.advance 10,
   Action.timerFires Waiter.start, Action.advance 90, Action.timerFires Waiter.stop]

/-- The coordinator takes the error of the start waiter, calls `cancel()` and
returns it. -/
def startErrorAndReturn : List Action :=
  [Action.schedRecvErr Waiter.start, Action.schedCancel, Action.schedReturn]

/-- With a stop waiter: the start timer fires at 10 and `Run` answers with an
error. -/
def startFails : List Action :=
  [Action.schedEnter, Action.begin Waiter.start, Action.begin Waiter.stop, Action.advance 10,
   Action.timerFires Waiter.start, Action.runReturns (Except.error runFailed)]

/-! ## The process: `run` of `cmd/main.go`, `NewVcr`, `Vcr.ControlLoop`, `Webhook.Listen` -/

/-- The wait groups allocated so far: the counter of each, by address. -/
abbrev Heap := List Int

/-- The allocation `&sync.WaitGroup{}`: the next address, and the heap with a
new counter at zero. -/
def Heap.alloc (h : Heap) : Nat × Heap := (h.length, h ++ [0])

/-- The call `wg.Add(delta)` on the wait group at address `a`; `wg.Done()` is
`wg.Add(-1)`. -/
def Heap.add : Heap → Nat → Int → Heap
  | [], _, _ => []
  | c :: rest, 0, delta => (c + delta) :: rest
  | c :: rest, a + 1, delta => c :: Heap.add rest a delta

/-- The counter of the wait group at address `a`. -/
def Heap.counter (h : Heap) (a : Nat) : Int := h.getD a 0

/-- Program points of `run` in `cmd/main.go`. -/
inductive MainPc where
  /-- nothing executed yet -/
  | start : MainPc
  /-- both goroutines launched, blocked on `<-c` -/
  | awaitingSignal : MainPc
  /-- a signal was received, `cancel()` not yet called -/
  | signalled : MainPc
  /-- blocked in `wg.Wait()` -/
  | waiting : MainPc
  /-- the call `wg.Wait()` has returned -/
  | exited : MainPc
deriving DecidableEq, Repr

/-- Program points of the goroutines `vcr.ControlLoop(ctx, wg)` and
`server.Listen(ctx, wg)`. -/
inductive TaskPc where
  /-- not launched -/
  | absent : TaskPc
  /-- launched by the `go` statement, `wg.Add(1)` not yet executed -/
  | launched : TaskPc
  /-- after `wg.Add(1)`, in its loop or `select` -/
  | registered : TaskPc
  /-- returned, the deferred `wg.Done()` executed -/
  | returned : TaskPc
deriving DecidableEq, Repr

/-- One launched Job: the address `r.wg` its `Recorder` was built with, its
Task Record and the state of its lifecycle. -/
structure JobProc where
  wg : Nat
  programming : Programming
  state : State
deriving DecidableEq, Repr

/-- The state of the process. -/
structure Process where
  now : Time
  heap : Heap
  /-- the address stored in the field `wg` of the `Vcr` by `NewVcr` -/
  vcrWg : Nat
  /-- the address held by the variable `wg` of `run` -/
  runWg : Nat
  main : MainPc
  loop : TaskPc
  server : TaskPc
  /-- the context of `run` is cancelled -/
  cancelled : Bool
  vcr : VcrState
  jobs : List JobProc

/-- Steps of the process. -/
inductive PAction where
  /-- the body of `run` up to `<-c`: `NewVcr`, `http.New`, the context, the
  wait group, the two `go` statements -/
  | build : PAction
  /-- the scan loop executes `wg.Add(1)` -/
  | loopEnter : PAction
  /-- the server executes `wg.Add(1)` -/
  | serverEnter : PAction
  /-- the scan loop takes `<-ticker.C`, the store answers `listing` and
  `time.Now()` gives the readings `clock` while the listing is examined -/
  | tick (clock : Nat → Readings) (listing : Except Error (List Programming)) : PAction
  /-- the clock advances by `d` nanoseconds -/
  | advance (d : Nat) : PAction
  /-- the receive `<-c` of `run` proceeds -/
  | osSignal : PAction
  /-- the call `cancel()` of `run` -/
  | cancel : PAction
  /-- the scan loop takes `<-ctx.Done()`, signals every registered Job and
  returns -/
  | loopShutdown : PAction
  /-- the server takes `<-ctx.Done()` and returns -/
  | serverShutdown : PAction
  /-- the server takes `<-errChan` and returns -/
  | serverFails : PAction
  /-- the call `wg.Wait()` of `run` returns -/
  | waitReturns : PAction
  /-- the Job at position `i` makes the step `a` of its lifecycle -/
  | job (i : Nat) (a : Action) : PAction

/-- The process before `run` is executed, at instant `now`. -/
def Process.init (now : Time) : Process :=
  { now := now, heap := [], vcrWg := 0, runWg := 0, main := MainPc.start,
    loop := TaskPc.absent, server := TaskPc.absent, cancelled := false,
    vcr := NewVcr, jobs := [] }

/-- The goroutine launched by `go func() { recording.Schedule(s.done) }` for a
new registry entry; `wg` is the fourth argument of `NewRecording`. -/
def launch (wg : Nat) (now : Time) (s : ScheduledRecording) : JobProc :=
  { wg := wg, programming := s.recording.programming, state := State.init now }

/-- Steps of a Job that belong to the Job itself: the clock and the signal on
`done` are steps of the process. -/
def Action.internal : Action → Bool
  | Action.advance _ => false
  | Action.signalDone => false
  | _ => true

/-- One step of the process; `none` when the action is not enabled. -/
def pstep (s : Process) : PAction → Option Process
  | PAction.build =>
      match s.main with
      | MainPc.start =>
          let a := s.heap.alloc
          let w := a.2.alloc
          some { s with
            heap := w.2
            vcrWg := a.1
            runWg := w.1
            main := MainPc.awaitingSignal
            loop := TaskPc.launched
            server := TaskPc.launched }
      | _ => none
  | PAction.loopEnter =>
      match s.loop with
      | TaskPc.launched =>
          some { s with heap := s.heap.add s.runWg 1, loop := TaskPc.registered }
      | _ => none
  | PAction.serverEnter =>
      match s.server with
      | TaskPc.launched =>
          some { s with heap := s.heap.add s.runWg 1, server := TaskPc.registered }
      | _ => none
  | PAction.tick clock listing =>
      match s.loop with
      | TaskPc.registered =>
          let v := scanTick clock s.vcr listing
          some { s with
            vcr := v
            jobs := s.jobs ++ (v.jobs.drop s.vcr.jobs.length).map (launch s.vcrWg s.now) }
      | _ => none
  | PAction.advance d =>
      some { s with
        now := s.now + (d : Int)
        jobs := s.jobs.map fun j =>
          { j with state := { j.state with now := j.state.now + (d : Int) } } }
  | PAction.osSignal =>
      match s.main with
      | MainPc.awaitingSignal => some { s with main := MainPc.signalled }
      | _ => none
  | PAction.cancel =>
      match s.main with
      | MainPc.signalled => some { s with cancelled := true, main := MainPc.waiting }
      | _ => none
  | PAction.loopShutdown =>
      match s.loop with
      | TaskPc.registered =>
          if s.cancelled then
            some { s with
              jobs := s.jobs.map fun j => { j with state := { j.state with done := true } }
              heap := s.heap.add s.runWg (-1)
              loop := TaskPc.returned }
          else none
      | _ => none
  | PAction.serverShutdown =>
      match s.server with
      | TaskPc.registered =>
          if s.cancelled then
            some { s with heap := s.heap.add s.runWg (-1), server := TaskPc.returned }
          else none
      | _ => none
  | PAction.serverFails =>
      match s.server with
      | TaskPc.registered =>
          some { s with heap := s.heap.add s.runWg (-1), server := TaskPc.returned }
      | _ => none
  | PAction.waitReturns =>
      match s.main with
      | MainPc.waiting =>
          if s.heap.counter s.runWg = 0 then some { s with main := MainPc.exited } else none
      | _ => none
  | PAction.job i a =>
      if a.internal then
        match s.jobs[i]? with
        | none => none
        | some j =>
            match step j.programming j.state a with
            | none => none
            | some st =>
                some { s with
                  heap := s.heap.add j.wg (st.wg - j.state.wg)
                  jobs := s.jobs.set i { j with state := st } }
      else none

/-- Run a schedule of process steps. -/
def pexec (s : Process) : List PAction → Option Process
  | [] => some s
  | a :: rest => (pstep s a).bind fun s1 => pexec s1 rest

/-- What a goroutine contributes to the wait group it registered on. -/
def TaskPc.weight : TaskPc → Int
  | TaskPc.registered => 1
  | _ => 0

/-- The invariant of the process: once `run` has built its objects, the wait
group of the `Vcr` and the one of `run` are the two distinct allocations, every
Job registers on the first, and the counter of the second is made of the scan
loop and the server alone. -/
structure ProcInv (s : Process) : Prop where
  fresh : s.main = MainPc.start →
    s.loop = TaskPc.absent ∧ s.server = TaskPc.absent ∧ s.jobs = [] ∧ s.heap = []
  built : s.main ≠ MainPc.start →
    s.heap.length = 2 ∧ s.vcrWg = 0 ∧ s.runWg = 1 ∧
    s.heap.counter 1 = s.loop.weight + s.server.weight
  jobsWg : ∀ j ∈ s.jobs, j.wg = 0

/-- A run of the process: a Job for `jobA` is armed by the first tick and has
entered `Schedule` and both waiters; then the process is signalled, `run`
cancels its context, the scan loop and the server return, and `wg.Wait()`
returns. -/
def shutdownRun : List PAction :=
  [PAction.build, PAction.loopEnter, PAction.serverEnter,
   PAction.tick (frozen 0) (Except.ok [jobA]),
   PAction.job 0 Action.schedEnter, PAction.job 0 (Action.begin Waiter.start),
   PAction.job 0 (Action.begin Waiter.stop),
   PAction.osSignal, PAction.cancel, PAction.loopShutdown, PAction.serverShutdown,
   PAction.waitReturns]

/-! # Theorems -/

/-! ## Lifecycle of one Job -/

@[simp]
theorem ranOp_absent : WaiterPc.absent.ranOp = false := rfl
@[simp]
theorem ranOp_launched : WaiterPc.launched.ranOp = false := rfl
@[simp]
theorem ranOp_waiting : WaiterPc.waiting.ranOp = false := rfl
@[simp]
theorem ranOp_dropped : WaiterPc.dropped.ranOp = false := rfl
@[simp]
theorem ranOp_running : WaiterPc.running.ranOp = true := rfl
@[simp]
theorem ranOp_finished : WaiterPc.finished.ranOp = true := rfl
@[simp]
theorem ranOp_killing (id : String) : (WaiterPc.killing id).ranOp = true := rfl
@[simp]
theorem ranOp_sending (e : Error) : (WaiterPc.sending e).ranOp = true := rfl
@[simp]
theorem ranOp_sent (e : Error) : (WaiterPc.sent e).ranOp = true := rfl

/-- The invariant holds when `Schedule` is called. -/
theorem Inv.init (p : Programming) (t0 : Time) : Inv p (State.init t0) := by
  constructor <;> simp [State.init, stopCount, recordCount, callsOf]

@[simp]
theorem callsOf_append (l1 l2 : List Obs) : callsOf (l1 ++ l2) = callsOf l1 ++ callsOf l2 := by
  induction l1 with
  | nil => simp [callsOf]
  | cons o rest ih => cases o <;> simp [callsOf, ih]

theorem inv_advance {p : Programming} {s : State} (d : Nat) (h : Inv p s) :
    Inv p { s with now := s.now + (d : Int) } := by
  obtain ⟨h1, h2, h3, h4, h5, h6, h7, h8, h9, h10, h11, h12, h13, h14, h15, h16, h17, h18, h19, h20⟩ := h
  have hd : (0 : Int) ≤ (d : Int) := Int.ofNat_nonneg d
  refine ⟨h1, h2, h3, h4, h5, h6, h7, h8, ?_, ?_, ?_, h12, h13, h14, h15, h16, h17, h18, h19, h20⟩
  · intro h
    rcases h9 h with h | h
    · left; show deadline p Waiter.stop ≤ s.now + (d : Int); linarith
    · right; exact h
  · intro h
    have := h10 h
    show p.Date ≤ s.now + (d : Int); linarith
  · intro h
    rcases h11 h with h | h | h
    · left; exact h
    · right; left; show deadline p Waiter.stop ≤ s.now + (d : Int); linarith
    · right; right; exact h

theorem inv_signalDone {p : Programming} {s : State} (h : Inv p s) :
    Inv p { s with done := true } := by
  obtain ⟨h1, h2, h3, h4, h5, h6, h7, h8, h9, h10, h11, h12, h13, h14, h15, h16, h17, h18, h19, h20⟩ := h
  refine ⟨h1, h2, h3, h4, h5, h6, h7, h8, ?_, h10, ?_, h12, h13, h14, ?_, h16, h17, h18, h19, h20⟩
  · intro h
    rcases h9 h with h | h
    · left; exact h
    · right; exact ⟨h.1, rfl⟩
  · intro _; left; rfl
  · intro _; rfl

theorem inv_schedEnter {p : Programming} {s s1 : State} (h : Inv p s)
    (hs : step p s Action.schedEnter = some s1) : Inv p s1 := by
  obtain ⟨h1, h2, h3, h4, h5, h6, h7, h8, h9, h10, h11, h12, h13, h14, h15, h16, h17, h18, h19, h20⟩ := h
  simp only [step] at hs
  split at hs
  · rename_i hpc
    have hA := h18 hpc
    have hB := h7 hA
    split at hs
    · simp only [Option.some.injEq] at hs
      subst hs
      cases hst : p.hasStop <;> constructor <;> first | assumption | simp_all
    · simp only [Option.some.injEq] at hs
      subst hs
      constructor <;> first | assumption | simp_all
  · simp at hs

theorem inv_schedRecvDone {p : Programming} {s s1 : State} (h : Inv p s)
    (hs : step p s Action.schedRecvDone = some s1) : Inv p s1 := by
  obtain ⟨h1, h2, h3, h4, h5, h6, h7, h8, h9, h10, h11, h12, h13, h14, h15, h16, h17, h18, h19, h20⟩ := h
  simp only [step] at hs
  split at hs
  · rename_i hpc
    split at hs
    · simp only [Option.some.injEq] at hs
      subst hs
      constructor <;> first | assumption | simp_all
    · simp at hs
  · simp at hs

theorem inv_schedRecvErr {p : Programming} {s s1 : State} (w : Waiter) (h : Inv p s)
    (hs : step p s (Action.schedRecvErr w) = some s1) : Inv p s1 := by
  obtain ⟨h1, h2, h3, h4, h5, h6, h7, h8, h9, h10, h11, h12, h13, h14, h15, h16, h17, h18, h19, h20⟩ := h
  simp only [step] at hs
  split at hs
  · rename_i e hpc hw
    simp only [Option.some.injEq] at hs
    subst hs
    cases w <;> simp only [State.pc] at hw <;> constructor <;>
      first | assumption | simp_all [State.setPc]
  · simp at hs

theorem inv_schedCancel {p : Programming} {s s1 : State} (h : Inv p s)
    (hs : step p s Action.schedCancel = some s1) : Inv p s1 := by
  obtain ⟨h1, h2, h3, h4, h5, h6, h7, h8, h9, h10, h11, h12, h13, h14, h15, h16, h17, h18, h19, h20⟩ := h
  simp only [step] at hs
  split at hs
  · simp only [Option.some.injEq] at hs
    subst hs
    constructor <;> first | assumption | simp_all
  · rename_i e hpc
    simp only [Option.some.injEq] at hs
    subst hs
    constructor
    case canc =>
      intro _
      rcases h16 e hpc with hw | hw
      · exact Or.inr (Or.inr ⟨e, hw⟩)
      · have hr : s.stopW.ranOp = true := by rw [hw]; rfl
        rcases h9 hr with hd | hd
        · exact Or.inr (Or.inl hd)
        · exact Or.inl hd.2
    all_goals first | assumption | simp_all
  · simp at hs

theorem inv_schedReturn {p : Programming} {s s1 : State} (h : Inv p s)
    (hs : step p s Action.schedReturn = some s1) : Inv p s1 := by
  obtain ⟨h1, h2, h3, h4, h5, h6, h7, h8, h9, h10, h11, h12, h13, h14, h15, h16, h17, h18, h19, h20⟩ := h
  simp only [step] at hs
  split at hs
  · simp only [Option.some.injEq] at hs
    subst hs
    constructor
    case runOnly =>
      intro hr c hc
      apply h4 hr
      simpa [callsOf] using hc
    all_goals first | assumption | simp_all [stopCount, recordCount, callsOf]
  · simp at hs

theorem inv_begin {p : Programming} {s s1 : State} (w : Waiter) (h : Inv p s)
    (hs : step p s (Action.begin w) = some s1) : Inv p s1 := by
  obtain ⟨h1, h2, h3, h4, h5, h6, h7, h8, h9, h10, h11, h12, h13, h14, h15, h16, h17, h18, h19, h20⟩ := h
  simp only [step] at hs
  split at hs
  · rename_i hw
    simp only [Option.some.injEq] at hs
    subst hs
    cases w <;> simp only [State.pc] at hw <;> constructor <;>
      first | assumption | (simp_all [State.setPc]; assumption) | simp_all [State.setPc]
  · simp at hs

theorem inv_timerFires {p : Programming} {s s1 : State} (w : Waiter) (h : Inv p s)
    (hs : step p s (Action.timerFires w) = some s1) : Inv p s1 := by
  obtain ⟨h1, h2, h3, h4, h5, h6, h7, h8, h9, h10, h11, h12, h13, h14, h15, h16, h17, h18, h19, h20⟩ := h
  simp only [step] at hs
  split at hs
  · rename_i hw
    split at hs
    · rename_i hdl
      simp only [Option.some.injEq] at hs
      subst hs
      cases w <;> simp only [State.pc] at hw <;> constructor <;>
        first | assumption | (simp_all [State.setPc, invoke, stopCount, recordCount, callsOf, Waiter.op, firstCall, deadline]; done) | (simp_all [State.setPc, invoke, stopCount, recordCount, callsOf, Waiter.op, firstCall, deadline]; assumption)
    · simp at hs
  · simp at hs

theorem inv_ctxDone {p : Programming} {s s1 : State} (w : Waiter) (h : Inv p s)
    (hs : step p s (Action.ctxDone w) = some s1) : Inv p s1 := by
  obtain ⟨h1, h2, h3, h4, h5, h6, h7, h8, h9, h10, h11, h12, h13, h14, h15, h16, h17, h18, h19, h20⟩ := h
  simp only [step] at hs
  split at hs
  · rename_i hw
    split at hs
    · rename_i hc
      split at hs
      · rename_i hst
        simp only [Option.some.injEq] at hs
        subst hs
        have hfin := h5 hst
        cases w <;> simp only [State.pc] at hw
        · rw [hfin] at hw; cases hw
        · constructor
          case stopRan =>
            intro _
            rcases h11 hc with hd | hd | ⟨e, hd⟩
            · exact Or.inr ⟨hst, hd⟩
            · exact Or.inl hd
            · rw [hfin] at hd; cases hd
          all_goals first | assumption | simp_all [State.setPc, invoke, stopCount, recordCount, callsOf, Waiter.op, firstCall, deadline]
      · simp only [Option.some.injEq] at hs
        subst hs
        cases w <;> simp only [State.pc] at hw <;> constructor <;>
          first | assumption | (simp_all [State.setPc, leave]; done) | (simp_all [State.setPc, leave]; assumption)
    · simp at hs
  · simp at hs

theorem inv_runReturns {p : Programming} {s s1 : State} (r : Except Error String) (h : Inv p s)
    (hs : step p s (Action.runReturns r) = some s1) : Inv p s1 := by
  obtain ⟨h1, h2, h3, h4, h5, h6, h7, h8, h9, h10, h11, h12, h13, h14, h15, h16, h17, h18, h19, h20⟩ := h
  simp only [step] at hs
  split at hs
  · rename_i hw
    split at hs
    · simp only [Option.some.injEq] at hs
      subst hs
      constructor <;>
          first | assumption | (simp_all [State.setPc, leave]; assumption) | simp_all [State.setPc, leave]
    · simp only [Option.some.injEq] at hs
      subst hs
      constructor <;>
          first | assumption | (simp_all [State.setPc, leave]; done) | (simp_all [State.setPc, leave]; assumption)
  · simp at hs

theorem inv_findReturns {p : Programming} {s s1 : State} (r : Except Error String) (h : Inv p s)
    (hs : step p s (Action.findReturns r) = some s1) : Inv p s1 := by
  obtain ⟨h1, h2, h3, h4, h5, h6, h7, h8, h9, h10, h11, h12, h13, h14, h15, h16, h17, h18, h19, h20⟩ := h
  simp only [step] at hs
  split at hs
  · rename_i hw
    split at hs
    · simp only [Option.some.injEq] at hs
      subst hs
      constructor <;>
          first | assumption | (simp_all [State.setPc, leave]; assumption) | simp_all [State.setPc, leave]
    · simp only [Option.some.injEq] at hs
      subst hs
      constructor <;>
          first | assumption | (simp_all [State.setPc, leave, stopCount, recordCount, callsOf]; assumption) | simp_all [State.setPc, leave, stopCount, recordCount, callsOf]
  · simp at hs

theorem inv_killReturns {p : Programming} {s s1 : State} (r : Option Error) (h : Inv p s)
    (hs : step p s (Action.killReturns r) = some s1) : Inv p s1 := by
  obtain ⟨h1, h2, h3, h4, h5, h6, h7, h8, h9, h10, h11, h12, h13, h14, h15, h16, h17, h18, h19, h20⟩ := h
  simp only [step] at hs
  split at hs
  · rename_i hw
    simp only [Option.some.injEq] at hs
    subst hs
    cases r <;> constructor <;>
          first | assumption | (simp_all [State.setPc, leave]; assumption) | simp_all [State.setPc, leave]
  · simp at hs

/-- Every step preserves the invariant. -/
theorem Inv.step {p : Programming} {s s1 : State} {a : Action}
    (h : Inv p s) (hs : step p s a = some s1) : Inv p s1 := by
  cases a with
  | advance d =>
    simp only [Vcr.step, Option.some.injEq] at hs
    subst hs
    exact inv_advance d h
  | signalDone =>
    simp only [Vcr.step, Option.some.injEq] at hs
    subst hs
    exact inv_signalDone h
  | schedEnter => exact inv_schedEnter h hs
  | schedRecvDone => exact inv_schedRecvDone h hs
  | schedRecvErr w => exact inv_schedRecvErr w h hs
  | schedCancel => exact inv_schedCancel h hs
  | schedReturn => exact inv_schedReturn h hs
  | begin w => exact inv_begin w h hs
  | timerFires w => exact inv_timerFires w h hs
  | ctxDone w => exact inv_ctxDone w h hs
  | runReturns r => exact inv_runReturns r h hs
  | findReturns r => exact inv_findReturns r h hs
  | killReturns r => exact inv_killReturns r h hs

/-- The invariant holds along every execution. -/
theorem Inv.exec {p : Programming} (tr : List Action) {s s1 : State}
    (h : Inv p s) (hs : exec p s tr = some s1) : Inv p s1 := by
  induction tr generalizing s with
  | nil =>
    simp only [Vcr.exec, Option.some.injEq] at hs
    subst hs
    exact h
  | cons a rest ih =>
    simp only [Vcr.exec] at hs
    cases hstep : Vcr.step p s a with
    | none => simp [hstep] at hs
    | some s2 =>
      rw [hstep] at hs
      exact ih (Inv.step h hstep) hs

@[simp]
theorem parked_absent : WaiterPc.absent.parked = false := rfl
@[simp]
theorem parked_launched : WaiterPc.launched.parked = true := rfl
@[simp]
theorem parked_waiting : WaiterPc.waiting.parked = true := rfl
@[simp]
theorem parked_dropped : WaiterPc.dropped.parked = false := rfl
@[simp]
theorem parked_running : WaiterPc.running.parked = false := rfl
@[simp]
theorem parked_finished : WaiterPc.finished.parked = false := rfl
@[simp]
theorem parked_killing (id : String) : (WaiterPc.killing id).parked = false := rfl
@[simp]
theorem parked_sending (e : Error) : (WaiterPc.sending e).parked = false := rfl
@[simp]
theorem parked_sent (e : Error) : (WaiterPc.sent e).parked = false := rfl

/-- Once the recording has started, the stop waiter never takes the branch that
returns without calling `stop`. -/
theorem armed_step {p : Programming} {s s1 : State} {a : Action}
    (hi : Inv p s) (h : Armed s) (hs : step p s a = some s1) : Armed s1 := by
  obtain ⟨hst, hw⟩ := h
  have hfin := hi.started hst
  have hne : s.sched ≠ SchedPc.entry := by
    intro he
    have := hi.entry he
    rw [hfin] at this; cases this
  cases a with
  | advance d => simp only [step, Option.some.injEq] at hs; subst hs; exact ⟨hst, hw⟩
  | signalDone => simp only [step, Option.some.injEq] at hs; subst hs; exact ⟨hst, hw⟩
  | schedEnter =>
    simp only [step] at hs
    simp at hs
  | schedRecvDone =>
    simp only [step] at hs
    split at hs
    · split at hs
      · simp only [Option.some.injEq] at hs; subst hs; exact ⟨hst, hw⟩
      · simp at hs
    · simp at hs
  | schedRecvErr w =>
    simp only [step] at hs
    split at hs
    · rename_i e hpc hwp
      simp only [Option.some.injEq] at hs; subst hs
      cases w <;> simp only [State.pc] at hwp
      · rw [hfin] at hwp; cases hwp
      · exact ⟨hst, Or.inr rfl⟩
    · simp at hs
  | schedCancel =>
    simp only [step] at hs
    split at hs
    · simp only [Option.some.injEq] at hs; subst hs; exact ⟨hst, hw⟩
    · simp only [Option.some.injEq] at hs; subst hs; exact ⟨hst, hw⟩
    · simp at hs
  | schedReturn =>
    simp only [step] at hs
    split at hs
    · simp only [Option.some.injEq] at hs; subst hs; exact ⟨hst, hw⟩
    · simp at hs
  | begin w =>
    simp only [step] at hs
    split at hs
    · rename_i hwp
      simp only [Option.some.injEq] at hs; subst hs
      cases w <;> simp only [State.pc] at hwp
      · rw [hfin] at hwp; cases hwp
      · exact ⟨hst, Or.inl rfl⟩
    · simp at hs
  | timerFires w =>
    simp only [step] at hs
    split at hs
    · rename_i hwp
      split at hs
      · simp only [Option.some.injEq] at hs; subst hs
        cases w <;> simp only [State.pc] at hwp
        · rw [hfin] at hwp; cases hwp
        · exact ⟨hst, Or.inr rfl⟩
      · simp at hs
    · simp at hs
  | ctxDone w =>
    simp only [step] at hs
    split at hs
    · rename_i hwp
      split at hs
      · simp only [hst, if_true, Option.some.injEq] at hs; subst hs
        cases w <;> simp only [State.pc] at hwp
        · rw [hfin] at hwp; cases hwp
        · exact ⟨hst, Or.inr rfl⟩
      · simp at hs
    · simp at hs
  | runReturns r =>
    simp only [step] at hs
    split at hs
    · rename_i hwp; rw [hfin] at hwp; cases hwp
    · simp at hs
  | findReturns r =>
    simp only [step] at hs
    split at hs
    · split at hs
      · simp only [Option.some.injEq] at hs; subst hs; exact ⟨hst, Or.inr rfl⟩
      · simp only [Option.some.injEq] at hs; subst hs; exact ⟨hst, Or.inr rfl⟩
    · simp at hs
  | killReturns r =>
    simp only [step] at hs
    split at hs
    · simp only [Option.some.injEq] at hs; subst hs
      cases r <;> exact ⟨hst, Or.inr rfl⟩
    · simp at hs

/-- A Job whose waiters both left without calling `run()` stays that way. -/
theorem quiet_step {p : Programming} {s s1 : State} {a : Action}
    (h : Quiet s) (hs : step p s a = some s1) : Quiet s1 := by
  obtain ⟨hA, hB, hC, hD⟩ := h
  cases a with
  | advance d => simp only [step, Option.some.injEq] at hs; subst hs; exact ⟨hA, hB, hC, hD⟩
  | signalDone => simp only [step, Option.some.injEq] at hs; subst hs; exact ⟨hA, hB, hC, hD⟩
  | schedEnter => rcases hD with hD | hD <;> simp [step, hD] at hs
  | schedRecvDone => rcases hD with hD | hD <;> simp [step, hD] at hs
  | schedRecvErr w => rcases hD with hD | hD <;> simp [step, hD] at hs
  | schedCancel => rcases hD with hD | hD <;> simp [step, hD] at hs
  | schedReturn =>
    rcases hD with hD | hD
    · simp only [step, hD, Option.some.injEq] at hs; subst hs
      exact ⟨hA, hB, hC, Or.inr rfl⟩
    · simp [step, hD] at hs
  | begin w => cases w <;> rcases hB with hB | hB <;> simp [step, State.pc, hA, hB] at hs
  | timerFires w => cases w <;> rcases hB with hB | hB <;> simp [step, State.pc, hA, hB] at hs
  | ctxDone w => cases w <;> rcases hB with hB | hB <;> simp [step, State.pc, hA, hB] at hs
  | runReturns r => simp [step, hA] at hs
  | findReturns r => rcases hB with hB | hB <;> simp [step, hB] at hs
  | killReturns r => rcases hB with hB | hB <;> simp [step, hB] at hs

theorem armed_exec {p : Programming} (tr : List Action) {s s1 : State}
    (hi : Inv p s) (h : Armed s) (hs : exec p s tr = some s1) : Armed s1 := by
  induction tr generalizing s with
  | nil =>
    simp only [Vcr.exec, Option.some.injEq] at hs
    subst hs
    exact h
  | cons a rest ih =>
    simp only [Vcr.exec] at hs
    cases hstep : Vcr.step p s a with
    | none => simp [hstep] at hs
    | some s2 =>
      rw [hstep] at hs
      exact ih (Inv.step hi hstep) (armed_step hi h hstep) hs

theorem quiet_exec {p : Programming} (tr : List Action) {s s1 : State}
    (h : Quiet s) (hs : exec p s tr = some s1) : Quiet s1 := by
  induction tr generalizing s with
  | nil =>
    simp only [Vcr.exec, Option.some.injEq] at hs
    subst hs
    exact h
  | cons a rest ih =>
    simp only [Vcr.exec] at hs
    cases hstep : Vcr.step p s a with
    | none => simp [hstep] at hs
    | some s2 =>
      rw [hstep] at hs
      exact ih (quiet_step h hstep) hs

theorem parked_cases {pc : WaiterPc} (h : pc.parked = true) :
    pc = WaiterPc.launched ∨ pc = WaiterPc.waiting := by
  cases pc <;> simp_all [WaiterPc.parked]

theorem not_parked_not_ran {pc : WaiterPc} (h1 : pc.parked = false) (h2 : pc.ranOp = false) :
    pc = WaiterPc.absent ∨ pc = WaiterPc.dropped := by
  cases pc <;> simp_all [WaiterPc.parked, WaiterPc.ranOp]

/-- C1 (amended): for a Job with a stop time, when the cancellation signal is
delivered after `record` has completed successfully and before the stop time is
reached, then in every execution `stop` is invoked at most once; it is the stop
waiter that invokes it, so as long as the stop waiter has not yet left its
`select` the count is zero, the waiter is still parked, and once the scope is
cancelled its next steps invoke `stop`, after which the count is exactly one.
Nothing orders that invocation before the return of `Schedule`. -/
theorem schedule_stop_once_after_start (p : Programming) (t0 : Time) (pre post : List Action)
    (s1 s2 : State)
    (hstop : p.hasStop = true)
    (hpre : exec p (State.init t0) pre = some s1)
    (hstarted : s1.startedRecording = true)
    (hundelivered : s1.done = false)
    (hearly : s1.now < deadline p Waiter.stop)
    (hpost : exec p s1 (Action.signalDone :: post) = some s2) :
    stopCount s2.log ≤ 1 ∧
    (s2.stopW.ranOp = true → stopCount s2.log = 1) ∧
    (s2.stopW.ranOp = false →
      s2.stopW.parked = true ∧ stopCount s2.log = 0 ∧
      (s2.cancelled = true →
        ∃ s3, exec p s2 (resume s2.stopW) = some s3 ∧ stopCount s3.log = 1)) := by
  have hi1 : Inv p s1 := Inv.exec pre (Inv.init p t0) hpre
  have hfin := hi1.started hstarted
  have hnr : s1.stopW.ranOp = false := by
    cases hr : s1.stopW.ranOp with
    | false => rfl
    | true =>
      rcases hi1.stopRan hr with h | h
      · exact absurd h (not_le.mpr hearly)
      · rw [hundelivered] at h; exact absurd h.2 (by simp)
  have hnc : s1.cancelled = false := by
    cases hc : s1.cancelled with
    | false => rfl
    | true =>
      rcases hi1.canc hc with h | h | ⟨e, h⟩
      · rw [hundelivered] at h; cases h
      · exact absurd h (not_le.mpr hearly)
      · rw [hfin] at h; cases h
  have hpk : s1.stopW.parked = true := by
    cases hp : s1.stopW.parked with
    | true => rfl
    | false =>
      rcases not_parked_not_ran hp hnr with h | h
      · have := hi1.pairedB hstop h
        rw [hfin] at this; cases this
      · have := hi1.dropStop h
        rw [hnc] at this; cases this
  have ha1 : Armed s1 := ⟨hstarted, Or.inl hpk⟩
  have hi2 : Inv p s2 := Inv.exec _ hi1 hpost
  have ha2 : Armed s2 := armed_exec _ hi1 ha1 hpost
  have hcnt := hi2.stopCnt
  refine ⟨?_, ?_, ?_⟩
  · rw [hcnt]; split <;> simp
  · intro hr; rw [hcnt, hr]; simp
  · intro hr
    have hp2 : s2.stopW.parked = true := by
      rcases ha2.2 with h | h
      · exact h
      · rw [hr] at h; cases h
    refine ⟨hp2, ?_, ?_⟩
    · rw [hcnt, hr]; simp
    · intro hc
      have h0 : stopCount s2.log = 0 := by rw [hcnt, hr]; simp
      rcases parked_cases hp2 with h | h
      · rw [h]
        simp [resume, exec, step, State.pc, State.setPc, h, hc, ha2.1, invoke, stopCount,
          Waiter.op] at h0 ⊢
        exact h0
      · rw [h]
        simp [resume, exec, step, State.pc, State.setPc, h, hc, ha2.1, invoke, stopCount,
          Waiter.op] at h0 ⊢
        exact h0

/-- C2 (amended): for a Job without stop time no execution ever invokes `stop`:
the log holds no `stop` invocation and no Runtime Port call other than `Run`.
When the cancellation signal is delivered after the start action has run
successfully, `Schedule` calls `cancel()` and returns nil, still without any
`stop` invocation. -/
theorem schedule_without_stop_time (p : Programming) (t0 : Time) (tr : List Action) (s : State)
    (hno : p.hasStop = false)
    (hrun : exec p (State.init t0) tr = some s) :
    stopCount s.log = 0 ∧
    (∀ c ∈ callsOf s.log, c = Call.Run p.Name) ∧
    (s.startedRecording = true → ∀ r, s.sched = SchedPc.returned r → r = none) ∧
    (s.startedRecording = true → s.done = true → s.sched = SchedPc.selecting →
      ∃ s3, exec p s [Action.schedRecvDone, Action.schedCancel, Action.schedReturn] = some s3 ∧
        s3.sched = SchedPc.returned none ∧ stopCount s3.log = 0) := by
  have hi : Inv p s := Inv.exec tr (Inv.init p t0) hrun
  have habs := hi.noStop hno
  have hnr : s.stopW.ranOp = false := by rw [habs]; rfl
  have h0 : stopCount s.log = 0 := by rw [hi.stopCnt, hnr]; simp
  refine ⟨h0, hi.runOnly hnr, ?_, ?_⟩
  · intro hst r hr
    have hfin := hi.started hst
    cases r with
    | none => rfl
    | some e =>
      rcases hi.ret e (Or.inr hr) with h | h | h
      · rw [hfin] at h; cases h
      · rw [hfin] at h; cases h
      · rw [habs] at h; cases h
  · intro _ hd hsel
    simp [exec, step, hsel, hd, stopCount] at h0 ⊢
    exact h0

/-- C3 (amended): when the scope has been cancelled and both waiters have left
their `select` while the clock is still before the start time and, for a Job
with a stop time, before the stop time, then no Runtime Port operation is ever
invoked, `startedRecording` stays false and `Schedule` returns nil, whatever
happens afterwards. -/
theorem schedule_cancel_before_timers (p : Programming) (t0 : Time) (pre post : List Action)
    (s1 s2 : State)
    (hpre : exec p (State.init t0) pre = some s1)
    (hcancel : s1.cancelled = true)
    (hstartW : s1.startW.parked = false)
    (hstopW : s1.stopW.parked = false)
    (hbeforeStart : s1.now < p.Date)
    (hbeforeStop : p.hasStop = true → s1.now < deadline p Waiter.stop)
    (hpost : exec p s1 post = some s2) :
    callsOf s2.log = [] ∧ recordCount s2.log = 0 ∧ stopCount s2.log = 0 ∧
    s2.startedRecording = false ∧
    (s2.sched = SchedPc.leaving none ∨ s2.sched = SchedPc.returned none) := by
  have hi1 : Inv p s1 := Inv.exec pre (Inv.init p t0) hpre
  have hnr1 : s1.startW.ranOp = false := by
    cases hr : s1.startW.ranOp with
    | false => rfl
    | true => exact absurd (hi1.startRan hr) (not_le.mpr hbeforeStart)
  have hd1 : s1.startW = WaiterPc.dropped := by
    rcases not_parked_not_ran hstartW hnr1 with h | h
    · exact absurd h (hi1.cancStart hcancel)
    · exact h
  have hst : s1.startedRecording = false := by
    cases hs : s1.startedRecording with
    | false => rfl
    | true =>
      have := hi1.started hs
      rw [hd1] at this; cases this
  have hnr2 : s1.stopW.ranOp = false := by
    cases hr : s1.stopW.ranOp with
    | false => rfl
    | true =>
      cases hh : p.hasStop with
      | false =>
        have := hi1.noStop hh
        rw [this] at hr; cases hr
      | true =>
        rcases hi1.stopRan hr with h | h
        · exact absurd h (not_le.mpr (hbeforeStop hh))
        · rw [hst] at h; cases h.1
  have hd2 : s1.stopW = WaiterPc.dropped ∨ s1.stopW = WaiterPc.absent :=
    (not_parked_not_ran hstopW hnr2).symm
  have hsched : s1.sched = SchedPc.leaving none ∨ s1.sched = SchedPc.returned none := by
    obtain ⟨r, hr⟩ := hi1.cancSched hcancel
    cases r with
    | none => exact hr
    | some e =>
      rcases hi1.ret e hr with h | h | h
      · rw [hd1] at h; cases h
      · rw [hd1] at h; cases h
      · rcases hd2 with h2 | h2 <;> rw [h2] at h <;> cases h
  have hq2 : Quiet s2 := quiet_exec post ⟨hd1, hd2, hst, hsched⟩ hpost
  have hi2 : Inv p s2 := Inv.exec post hi1 hpost
  obtain ⟨qA, qB, qC, qD⟩ := hq2
  have r1 : s2.startW.ranOp = false := by rw [qA]; rfl
  have r2 : s2.stopW.ranOp = false := by rcases qB with h | h <;> rw [h] <;> rfl
  refine ⟨hi2.calls r1 r2, ?_, ?_, qC, qD⟩
  · rw [hi2.recCnt, r1]; simp
  · rw [hi2.stopCnt, r2]; simp

/-- C1 (counterexample): start at 10, stop at 100.  `record` succeeds at instant
10, the signal on `done` is delivered afterwards, the coordinator takes it,
calls `cancel()` and returns nil while the stop waiter is still blocked in its
`select`: `Schedule` has returned and `stop` has not been invoked. -/
theorem schedule_returns_before_stop :
    ∃ s1 s2, exec jobA (State.init 0) startedRun = some s1 ∧
      s1.startedRecording = true ∧ s1.done = false ∧ s1.now < 100 ∧
      exec jobA s1 (Action.signalDone :: cancelAndReturn) = some s2 ∧
      s2.sched = SchedPc.returned none ∧ stopCount s2.log = 0 :=
  ⟨_, _, rfl, rfl, rfl, by decide, rfl, rfl, by decide⟩

/-- C1 (witness): the scenario of the counterexample, continued: after the
return of `Schedule` the stop waiter takes `<-ctx.Done()` and invokes `stop`
once. -/
theorem schedule_stop_once_after_start_witness :
    ∃ s1 s2, exec jobA (State.init 0) startedRun = some s1 ∧
      exec jobA s1 (Action.signalDone :: cancelAndReturn) = some s2 ∧
      s2.stopW.ranOp = false ∧ s2.cancelled = true ∧
      ∃ s3, exec jobA s2 (resume s2.stopW) = some s3 ∧ stopCount s3.log = 1 :=
  ⟨_, _, rfl, rfl, rfl, rfl,
    ((schedule_stop_once_after_start jobA 0 startedRun cancelAndReturn _ _ rfl rfl rfl rfl
      (by decide) rfl).2.2 rfl).2.2 rfl⟩

/-- C2 (counterexample): start at 10, no stop time.  `record` succeeds, the signal
on `done` is delivered afterwards, `Schedule` returns nil, and `stop` has not
been invoked: no goroutine is left that could invoke it. -/
theorem schedule_no_stop_time_never_stops :
    ∃ s1 s2, exec jobB (State.init 0) startedRunNoStop = some s1 ∧
      s1.startedRecording = true ∧ s1.done = false ∧
      exec jobB s1 (Action.signalDone :: cancelAndReturn) = some s2 ∧
      s2.sched = SchedPc.returned none ∧ stopCount s2.log = 0 :=
  ⟨_, _, rfl, rfl, rfl, rfl, rfl, by decide⟩

/-- C2 (witness): the same Job, at the state in which the signal has been
delivered after a successful start. -/
theorem schedule_without_stop_time_witness :
    ∃ s, exec jobB (State.init 0) (startedRunNoStop ++ [Action.signalDone]) = some s ∧
      stopCount s.log = 0 ∧
      ∃ s3, exec jobB s cancelAndReturn = some s3 ∧ s3.sched = SchedPc.returned none ∧
        stopCount s3.log = 0 :=
  ⟨_, rfl, (schedule_without_stop_time jobB 0 (startedRunNoStop ++ [Action.signalDone]) _ rfl rfl).1,
    (schedule_without_stop_time jobB 0 (startedRunNoStop ++ [Action.signalDone]) _ rfl rfl).2.2.2 rfl rfl rfl⟩

/-- C3 (counterexample): two executions in which the signal on `done` is
delivered strictly before the start timer fires.  First, start at 10 and stop at
100: the signal is delivered at instant 5, but the clock reaches 10 before the
coordinator runs; the start waiter takes `<-timer.C` and calls `Run`, and after
`cancel()` the stop waiter calls `FindByName` and `KillContainer`.  Second,
start at 1240 and stop at 640 with `Schedule` called at instant 1000: the stop
timer fires at once, `FindByName` is called, and `Schedule` returns its error
instead of nil. -/
theorem schedule_cancel_races_start_timer :
    (∃ s1 s2, exec jobA (State.init 0) armedRun = some s1 ∧
      jobA.IsUpcoming 0 = true ∧ s1.now < jobA.Date ∧ s1.log = [] ∧
      exec jobA s1 (Action.signalDone :: lateReaction) = some s2 ∧
      s2.sched = SchedPc.returned none ∧ s2.startedRecording = true ∧
      callsOf s2.log =
        [Call.Run "news", Call.FindByName "news", Call.KillContainer "c1"]) ∧
    (∃ s1 s2, exec jobC (State.init 1000) stopFiresFirst = some s1 ∧
      jobC.IsUpcoming 1000 = true ∧ s1.now < jobC.Date ∧
      exec jobC s1 (Action.signalDone :: errorAndReturn) = some s2 ∧
      s2.sched = SchedPc.returned (some Error.ErrContainerNotFound) ∧
      s2.startedRecording = false ∧
      callsOf s2.log = [Call.FindByName "news"]) :=
  ⟨⟨_, _, rfl, rfl, by decide, rfl, rfl, rfl, rfl, rfl⟩,
    ⟨_, _, rfl, rfl, by decide, rfl, rfl, rfl, rfl⟩⟩

/-- C3 (witness): the signal is delivered at instant 5 and the coordinator and
both waiters react at once; nothing is invoked even after the clock has passed
both timers. -/
theorem schedule_cancel_before_timers_witness :
    ∃ s1 s2, exec jobA (State.init 0) cancelledEarly = some s1 ∧
      exec jobA s1 [Action.advance 100, Action.schedReturn] = some s2 ∧
      s2.sched = SchedPc.returned none ∧
      callsOf s2.log = [] ∧ recordCount s2.log = 0 ∧ stopCount s2.log = 0 ∧
      s2.startedRecording = false ∧
      (s2.sched = SchedPc.leaving none ∨ s2.sched = SchedPc.returned none) :=
  ⟨_, _, rfl, rfl, rfl,
    schedule_cancel_before_timers jobA 0 cancelledEarly [Action.advance 100, Action.schedReturn]
      _ _ rfl rfl rfl rfl (by decide) (fun _ => by decide) rfl⟩

/-! ## The scan loop -/

theorem sub_lt_iff (t u : Time) : Time.Sub t u < 5 * Minute ↔ t - u < 300000000000 := by
  unfold Time.Sub maxDuration minDuration Minute Duration Time
  split
  · constructor <;> intro h <;> omega
  · split
    · constructor <;> intro h <;> omega
    · constructor <;> intro h <;> omega

theorem examine_spec (r : Readings) (a : VcrState) (p : Programming) :
    ((r.upcoming < p.Date ∧ p.Date - r.window < 300000000000 ∧
        a.programmings p.Name = none) →
      examine r a p =
        { programmings := a.programmings.assign p.Name
            { recording := NewRecording p, done := a.jobs.length },
          jobs := a.jobs ++ [{ recording := NewRecording p, done := a.jobs.length }] }) ∧
    (¬ (r.upcoming < p.Date ∧ p.Date - r.window < 300000000000 ∧
        a.programmings p.Name = none) →
      examine r a p = a) := by
  constructor
  · rintro ⟨h1, h2, h3⟩
    have h2' := (sub_lt_iff p.Date r.window).mpr h2
    simp [examine, Programming.IsUpcoming, h1, h2', h3]
  · intro h
    unfold examine
    split
    · rename_i hc
      simp only [Programming.IsUpcoming, Bool.and_eq_true, decide_eq_true_eq] at hc
      have h2 := (sub_lt_iff p.Date r.window).mp hc.2
      cases hreg : a.programmings p.Name with
      | none => exact absurd ⟨hc.1, h2, hreg⟩ h
      | some v => rfl
    · rfl

theorem examine_cases (r : Readings) (a : VcrState) (p : Programming) :
    examine r a p = a ∨
    (a.programmings p.Name = none ∧
      examine r a p =
        { programmings := a.programmings.assign p.Name
            { recording := NewRecording p, done := a.jobs.length },
          jobs := a.jobs ++ [{ recording := NewRecording p, done := a.jobs.length }] }) := by
  by_cases h : r.upcoming < p.Date ∧ p.Date - r.window < 300000000000 ∧
      a.programmings p.Name = none
  · exact Or.inr ⟨h.2.2, (examine_spec r a p).1 h⟩
  · exact Or.inl ((examine_spec r a p).2 h)

theorem examine_coherent (r : Readings) (a : VcrState) (p : Programming) (h : Coherent a) :
    Coherent (examine r a p) := by
  rcases examine_cases r a p with he | ⟨hnone, he⟩
  · rw [he]; exact h
  · rw [he]
    have hfresh : ∀ j ∈ a.jobs, j.name ≠ p.Name := by
      intro j hj hn
      have := h.registered j hj
      rw [hn, hnone] at this
      cases this
    constructor
    · intro j hj
      simp only [List.mem_append, List.mem_singleton] at hj
      rcases hj with hj | hj
      · simp only [Registry.assign, hfresh j hj, if_false]
        exact h.registered j hj
      · subst hj
        simp [Registry.assign, ScheduledRecording.name, NewRecording]
    · intro name j hj
      simp only [Registry.assign] at hj
      split at hj
      · rename_i hn
        simp only [Option.some.injEq] at hj
        subst hj
        refine ⟨by simp, ?_⟩
        simp [ScheduledRecording.name, NewRecording, hn]
      · obtain ⟨h1, h2⟩ := h.launched name j hj
        exact ⟨by simp [h1], h2⟩
    · simp only [List.map_append, List.map_cons, List.map_nil]
      rw [List.nodup_append]
      refine ⟨h.unique, by simp, ?_⟩
      intro x hx hx2
      simp only [List.mem_singleton] at hx2
      obtain ⟨j, hj, hjn⟩ := List.mem_map.mp hx
      apply hfresh j hj
      rw [hjn, hx2]
      simp [ScheduledRecording.name, NewRecording]

theorem examine_keeps (r : Readings) (a : VcrState) (p : Programming) (name : String)
    (j : ScheduledRecording) (h : a.programmings name = some j) :
    (examine r a p).programmings name = some j := by
  rcases examine_cases r a p with he | ⟨hnone, he⟩
  · rw [he]; exact h
  · rw [he]
    simp only [Registry.assign]
    split
    · rename_i hn
      rw [hn, hnone] at h
      cases h
    · exact h

theorem examine_prefix (r : Readings) (a : VcrState) (p : Programming) :
    a.jobs <+: (examine r a p).jobs := by
  rcases examine_cases r a p with he | ⟨_, he⟩
  · rw [he]
  · rw [he]; exact List.prefix_append _ _

theorem examine_new (r : Readings) (a : VcrState) (p : Programming) :
    ∀ j ∈ (examine r a p).jobs, j ∈ a.jobs ∨ a.programmings j.name = none := by
  intro j hj
  rcases examine_cases r a p with he | ⟨hnone, he⟩
  · rw [he] at hj; exact Or.inl hj
  · rw [he] at hj
    simp only [List.mem_append, List.mem_singleton] at hj
    rcases hj with hj | hj
    · exact Or.inl hj
    · right
      subst hj
      simpa [ScheduledRecording.name, NewRecording] using hnone

theorem Grows.refl (a : VcrState) : Grows a a :=
  ⟨fun _ _ h => h, List.prefix_refl _, fun _ hj => Or.inl hj⟩

theorem Grows.trans {a b c : VcrState} (h1 : Grows a b) (h2 : Grows b c) :
    Grows a c := by
  refine ⟨fun n j h => h2.keeps n j (h1.keeps n j h), h1.appended.trans h2.appended, ?_⟩
  intro j hj
  rcases h2.fresh j hj with h | h
  · exact h1.fresh j h
  · right
    cases ha : a.programmings j.name with
    | none => rfl
    | some v =>
      have := h1.keeps _ _ ha
      rw [h] at this
      cases this

theorem examine_grows (r : Readings) (a : VcrState) (p : Programming) :
    Grows a (examine r a p) :=
  ⟨examine_keeps r a p, examine_prefix r a p, examine_new r a p⟩

theorem examineFrom_grows (clock : Nat → Readings) (ps : List Programming) (i : Nat)
    (a : VcrState) (h : Coherent a) :
    Coherent (examineFrom clock i a ps) ∧ Grows a (examineFrom clock i a ps) := by
  induction ps generalizing a i with
  | nil => exact ⟨h, Grows.refl a⟩
  | cons p rest ih =>
    simp only [examineFrom]
    have hc := examine_coherent (clock i) a p h
    obtain ⟨h1, h2⟩ := ih (i + 1) (examine (clock i) a p) hc
    exact ⟨h1, Grows.trans (examine_grows (clock i) a p) h2⟩

theorem examineFrom_append (clock : Nat → Readings) (pre post : List Programming) (i : Nat)
    (a : VcrState) :
    examineFrom clock i a (pre ++ post) =
      examineFrom clock (i + pre.length) (examineFrom clock i a pre) post := by
  induction pre generalizing a i with
  | nil => simp [examineFrom]
  | cons p rest ih =>
    show examineFrom clock (i + 1) (examine (clock i) a p) (rest ++ post) =
      examineFrom clock (i + (rest.length + 1))
        (examineFrom clock (i + 1) (examine (clock i) a p) rest) post
    rw [ih]
    congr 1
    omega

theorem scanTick_grows (clock : Nat → Readings) (a : VcrState)
    (listing : Except Error (List Programming)) (h : Coherent a) :
    Coherent (scanTick clock a listing) ∧ Grows a (scanTick clock a listing) := by
  cases listing with
  | error e => exact ⟨h, Grows.refl a⟩
  | ok ps => exact examineFrom_grows clock ps 0 a h

theorem runTicks_grows (ticks : List ((Nat → Readings) × Except Error (List Programming)))
    (a : VcrState) (h : Coherent a) :
    Coherent (runTicks a ticks) ∧ Grows a (runTicks a ticks) := by
  induction ticks generalizing a with
  | nil => exact ⟨h, Grows.refl a⟩
  | cons t rest ih =>
    obtain ⟨clock, listing⟩ := t
    simp only [runTicks]
    obtain ⟨hc, hg⟩ := scanTick_grows clock a listing h
    obtain ⟨h1, h2⟩ := ih (scanTick clock a listing) hc
    exact ⟨h1, Grows.trans hg h2⟩

theorem newVcr_coherent : Coherent NewVcr :=
  ⟨fun _ hj => by simp [NewVcr] at hj, fun _ _ hj => by simp [NewVcr] at hj, by simp [NewVcr]⟩

/-- C4 (amended): one scan tick examines the records of the listing in order,
and `time.Now()` is read twice for each record: `upcoming` in `IsUpcoming`,
`window` in `Date.Sub(time.Now())`.  When record `p` is reached, a Job is
created if and only if `p.Date` is strictly after the reading `upcoming`,
`p.Date` minus the reading `window` is strictly less than five minutes, and the
registry has no entry under `p.Name` at that moment.  The Job created is the one
for `p` itself, not yet started, on a new `done` channel; it is appended to the
launched Jobs and entered in the registry under `p.Name`, every other name
keeping what it had.  Otherwise the record leaves the state as it is; in
particular for a start time at or before the reading `upcoming`, and for a
start time five minutes or more after the reading `window`.  When both readings
show the same instant `now`, the condition is the one of the claim. -/
theorem controlLoop_arms_iff (clock : Nat → Readings) (a : VcrState)
    (pre post : List Programming) (p : Programming) :
    scanTick clock a (Except.ok (pre ++ p :: post)) =
      examineFrom clock (pre.length + 1)
        (examine (clock pre.length) (scanTick clock a (Except.ok pre)) p) post ∧
    ((examine (clock pre.length) (scanTick clock a (Except.ok pre)) p).jobs =
        (scanTick clock a (Except.ok pre)).jobs ++
          [{ done := (scanTick clock a (Except.ok pre)).jobs.length,
             recording := { programming := p, startedRecording := false } }] ↔
      ((clock pre.length).upcoming < p.Date ∧
        p.Date - (clock pre.length).window < 5 * 60 * 1000000000 ∧
        (scanTick clock a (Except.ok pre)).programmings p.Name = none)) ∧
    (((clock pre.length).upcoming < p.Date ∧
        p.Date - (clock pre.length).window < 5 * 60 * 1000000000 ∧
        (scanTick clock a (Except.ok pre)).programmings p.Name = none) →
      (examine (clock pre.length) (scanTick clock a (Except.ok pre)) p).programmings p.Name =
        some { done := (scanTick clock a (Except.ok pre)).jobs.length,
               recording := { programming := p, startedRecording := false } } ∧
      ∀ name, name ≠ p.Name →
        (examine (clock pre.length) (scanTick clock a (Except.ok pre)) p).programmings name =
          (scanTick clock a (Except.ok pre)).programmings name) ∧
    (¬ ((clock pre.length).upcoming < p.Date ∧
        p.Date - (clock pre.length).window < 5 * 60 * 1000000000 ∧
        (scanTick clock a (Except.ok pre)).programmings p.Name = none) →
      examine (clock pre.length) (scanTick clock a (Except.ok pre)) p =
        scanTick clock a (Except.ok pre)) ∧
    (p.Date ≤ (clock pre.length).upcoming →
      examine (clock pre.length) (scanTick clock a (Except.ok pre)) p =
        scanTick clock a (Except.ok pre)) ∧
    ((clock pre.length).window + 5 * 60 * 1000000000 ≤ p.Date →
      examine (clock pre.length) (scanTick clock a (Except.ok pre)) p =
        scanTick clock a (Except.ok pre)) ∧
    (∀ now : Time, (clock pre.length).upcoming = now → (clock pre.length).window = now →
      ((examine (clock pre.length) (scanTick clock a (Except.ok pre)) p).jobs =
          (scanTick clock a (Except.ok pre)).jobs ++
            [{ done := (scanTick clock a (Except.ok pre)).jobs.length,
               recording := { programming := p, startedRecording := false } }] ↔
        (now < p.Date ∧ p.Date - now < 5 * 60 * 1000000000 ∧
          (scanTick clock a (Except.ok pre)).programmings p.Name = none))) := by
  have hs := examine_spec (clock pre.length) (scanTick clock a (Except.ok pre)) p
  have hiff : (examine (clock pre.length) (scanTick clock a (Except.ok pre)) p).jobs =
        (scanTick clock a (Except.ok pre)).jobs ++
          [{ done := (scanTick clock a (Except.ok pre)).jobs.length,
             recording := { programming := p, startedRecording := false } }] ↔
      ((clock pre.length).upcoming < p.Date ∧
        p.Date - (clock pre.length).window < 300000000000 ∧
        (scanTick clock a (Except.ok pre)).programmings p.Name = none) := by
    constructor
    · intro hj
      by_contra hc
      rw [hs.2 hc] at hj
      have := congrArg List.length hj
      simp at this
    · intro hc
      rw [hs.1 hc]
      rfl
  norm_num at hs hiff ⊢
  refine ⟨?_, hiff, ?_, ?_, ?_, ?_, ?_⟩
  · simp only [scanTick]
    rw [examineFrom_append]
    simp [examineFrom]
  · intro h1 h2 h3
    rw [hs.1 h1 h2 h3]
    constructor
    · simp [Registry.assign, NewRecording]
    · intro name hne
      simp [Registry.assign, hne, h3]
  · intro h1
    exact hs.2 (by tauto)
  · intro hle
    apply hs.2
    intro h1
    unfold Time at *
    omega
  · intro hle
    apply hs.2
    intro _ h2
    unfold Time at *
    omega
  · intro e
    rw [e] at hiff
    exact hiff

/-- C4 (counterexample): a tick over the listing of `recA` (start at instant 10)
and `recB` (start five minutes after instant 10), the clock advancing by one
nanosecond from reading to reading (9 and 10 while `recA` is examined, 10 and 11
while `recB` is).  The tick creates a Job for both records.  No instant `now`
makes the condition of the claim hold for both; `recA` is armed although its
start time equals the second reading taken for it, and `recB` although it
starts exactly five minutes after the first reading taken for it. -/
theorem controlLoop_arms_between_readings :
    (scanTick tickingClock NewVcr (Except.ok [recA, recB])).jobs =
      [{ done := 0, recording := { programming := recA, startedRecording := false } },
       { done := 1, recording := { programming := recB, startedRecording := false } }] ∧
    (∀ now : Time,
      ¬ ((now < recA.Date ∧ recA.Date - now < 5 * 60 * 1000000000) ∧
         (now < recB.Date ∧ recB.Date - now < 5 * 60 * 1000000000))) ∧
    (tickingClock 0).upcoming ≤ (tickingClock 0).window ∧
    (tickingClock 0).window ≤ (tickingClock 1).upcoming ∧
    (tickingClock 1).upcoming ≤ (tickingClock 1).window ∧
    recA.Date = (tickingClock 0).window ∧
    recB.Date = (tickingClock 1).upcoming + 5 * 60 * 1000000000 := by
  refine ⟨rfl, ?_, by decide, by decide, by decide, rfl, rfl⟩
  intro now h
  have h1 : now < 10 := h.1.1
  have h2 : (300000000010 : Int) - now < 5 * 60 * 1000000000 := h.2.2
  unfold Time at *
  omega

/-- C4 (witness): the amended statement at the second record of that tick. -/
theorem controlLoop_arms_iff_witness :
    (examine (tickingClock 1) (scanTick tickingClock NewVcr (Except.ok [recA])) recB).jobs =
      (scanTick tickingClock NewVcr (Except.ok [recA])).jobs ++
        [{ done := 1, recording := { programming := recB, startedRecording := false } }] ∧
    examine (tickingClock 1) (scanTick tickingClock NewVcr (Except.ok [recA])) recA =
      scanTick tickingClock NewVcr (Except.ok [recA]) :=
  ⟨(controlLoop_arms_iff tickingClock NewVcr [recA] [] recB).2.1.mpr
      ⟨by decide, by decide, rfl⟩,
   (controlLoop_arms_iff tickingClock NewVcr [recA] [] recA).2.2.2.1
      (fun h => absurd h.2.2 (by simp [scanTick, examineFrom, examine, NewVcr, recA,
        Programming.IsUpcoming, tickingClock, Time.Sub, maxDuration, minDuration, Minute,
        Registry.assign]))⟩

/-- C5: along every sequence of scan ticks from the state built by `NewVcr`, no
two launched Jobs share a task name, every launched Job is the registry entry
under its name, an entry once inserted stays as it is (neither removed nor
replaced), the list of launched Jobs only grows at its end, and a Job created
later had no entry under its name before: a name with an entry is never armed
again. -/
theorem controlLoop_one_job_per_name
    (ticks1 ticks2 : List ((Nat → Readings) × Except Error (List Programming))) :
    ((runTicks (runTicks NewVcr ticks1) ticks2).jobs.map ScheduledRecording.name).Nodup ∧
    (∀ j ∈ (runTicks (runTicks NewVcr ticks1) ticks2).jobs,
      (runTicks (runTicks NewVcr ticks1) ticks2).programmings j.name = some j) ∧
    (∀ name j, (runTicks NewVcr ticks1).programmings name = some j →
      (runTicks (runTicks NewVcr ticks1) ticks2).programmings name = some j) ∧
    (runTicks NewVcr ticks1).jobs <+: (runTicks (runTicks NewVcr ticks1) ticks2).jobs ∧
    (∀ j ∈ (runTicks (runTicks NewVcr ticks1) ticks2).jobs,
      j ∈ (runTicks NewVcr ticks1).jobs ∨
        (runTicks NewVcr ticks1).programmings j.name = none) := by
  obtain ⟨hc1, _⟩ := runTicks_grows ticks1 NewVcr newVcr_coherent
  obtain ⟨hc2, hg⟩ := runTicks_grows ticks2 (runTicks NewVcr ticks1) hc1
  exact ⟨hc2.unique, hc2.registered, hg.keeps, hg.appended, hg.fresh⟩

/-! ## Requests: `parseTime`, `ToProgramming`, `AddProgramming` -/

theorem leadingIntFrom_rest (x : Nat) (l : List Char) (v : Nat) (s1 : List Char)
    (h : leadingIntFrom x l = some (v, s1)) : s1 = l.dropWhile isDigit := by
  induction l generalizing x with
  | nil => simp [leadingIntFrom] at h; simp [h.2]
  | cons c rest ih =>
    simp only [leadingIntFrom] at h
    by_cases hc : isDigit c = true
    · simp only [hc, if_true] at h
      split at h
      · cases h
      · split at h
        · cases h
        · simp only [List.dropWhile_cons, hc, if_true]
          exact ih _ h
    · simp only [hc] at h
      simp at h
      obtain ⟨_, h2⟩ := h
      subst h2
      simp [List.dropWhile_cons, hc]

theorem unitMap_head (c : Char) (rest : List Char) (n : Nat)
    (h : unitMap (String.mk (c :: rest)) = some n) : c ≠ ':' ∧ c ≠ '-' := by
  constructor
  · rintro rfl
    simp [unitMap, String.ext_iff] at h
  · rintro rfl
    simp [unitMap, String.ext_iff] at h

theorem durationRound_rejects (l : List Char) (d : Nat) (x : Char)
    (rest : List Char) (hl : l.dropWhile isDigit = x :: rest) (hx : x = ':' ∨ x = '-') :
    durationRound l d = none := by
  have hxe : endsUnit x = false := by rcases hx with rfl | rfl <;> rfl
  have hxd : x ≠ '.' := by rcases hx with rfl | rfl <;> decide
  cases l with
  | nil => simp at hl
  | cons c cs =>
    simp only [durationRound]
    split
    · rfl
    · cases hli : leadingInt (c :: cs) with
      | none => rfl
      | some r =>
        obtain ⟨v, s1⟩ := r
        have hs1 : s1 = x :: rest := by
          rw [← hl]; exact leadingIntFrom_rest 0 _ v s1 hli
        subst hs1
        simp only
        have hfrac : (match x :: rest with
            | '.' :: s2 =>
                ((leadingFraction s2).1, (leadingFraction s2).2.1, (leadingFraction s2).2.2,
                  s2.length != (leadingFraction s2).2.2.length)
            | _ => ((0 : Nat), (0 : Nat), x :: rest, false)) = (0, 0, x :: rest, false) := by
          split
          · rename_i heq
            simp only [List.cons.injEq] at heq
            exact absurd heq.1.symm (fun h => hxd h.symm)
          · rfl
        rw [hfrac]
        simp only
        split
        · rfl
        · have htw : (List.takeWhile (fun x => !endsUnit x) (x :: rest)) =
              x :: List.takeWhile (fun x => !endsUnit x) rest := by
            simp [List.takeWhile_cons, hxe]
          rw [htw]
          simp only [List.isEmpty_cons]
          cases hu : unitMap (String.mk (x :: List.takeWhile (fun x => !endsUnit x) rest)) with
          | none => simp
          | some n =>
            have := unitMap_head _ _ _ hu
            rcases hx with rfl | rfl
            · exact absurd rfl this.1
            · exact absurd rfl this.2

theorem parseDurationLoop_rejects (fuel : Nat) (l : List Char) (d : Nat) (x : Char)
    (rest : List Char) (hl : l.dropWhile isDigit = x :: rest) (hx : x = ':' ∨ x = '-') :
    parseDurationLoop fuel l d = none := by
  cases l with
  | nil => simp at hl
  | cons c cs =>
    cases fuel with
    | zero => rfl
    | succ fuel =>
      simp only [parseDurationLoop]
      rw [durationRound_rejects _ d x rest hl hx]

theorem leadingFractionFrom_length (x k : Nat) (o : Bool) (l : List Char) :
    (leadingFractionFrom x k o l).2.2.length ≤ l.length := by
  induction l generalizing x k o with
  | nil => simp [leadingFractionFrom]
  | cons c rest ih =>
    simp only [leadingFractionFrom]
    split
    · split
      · exact Nat.le_succ_of_le (ih _ _ _)
      · split
        · exact Nat.le_succ_of_le (ih _ _ _)
        · split
          · exact Nat.le_succ_of_le (ih _ _ _)
          · exact Nat.le_succ_of_le (ih _ _ _)
    · simp

theorem length_dropWhile_le (p : Char → Bool) (l : List Char) :
    (l.dropWhile p).length ≤ l.length := by
  induction l with
  | nil => simp
  | cons c rest ih =>
    simp only [List.dropWhile_cons]
    split
    · exact Nat.le_succ_of_le ih
    · exact Nat.le_refl _

theorem length_dropWhile_lt (p : Char → Bool) (l : List Char)
    (h : (l.takeWhile p).isEmpty = false) : (l.dropWhile p).length < l.length := by
  cases l with
  | nil => simp at h
  | cons c rest =>
    simp only [List.takeWhile_cons, List.dropWhile_cons] at h ⊢
    split
    · exact Nat.lt_succ_of_le (length_dropWhile_le p rest)
    · rename_i hc
      simp [hc] at h

/-- Every round of the loop of `time.ParseDuration` consumes at least one
character. -/
theorem durationRound_length (l : List Char) (d : Nat) (s3 : List Char) (d1 : Nat)
    (h : durationRound l d = some (s3, d1)) : s3.length < l.length := by
  cases l with
  | nil => simp [durationRound] at h
  | cons c cs =>
    simp only [durationRound] at h
    split at h
    · cases h
    · cases hli : leadingInt (c :: cs) with
      | none => simp [hli] at h
      | some r =>
        obtain ⟨v, s1⟩ := r
        have hs1 : s1 = (c :: cs).dropWhile isDigit := leadingIntFrom_rest 0 _ v s1 hli
        have hs1len : s1.length ≤ (c :: cs).length := by
          rw [hs1]; exact length_dropWhile_le _ _
        simp only [hli] at h
        have hF : (match s1 with
            | '.' :: s2 =>
                ((leadingFraction s2).1, (leadingFraction s2).2.1, (leadingFraction s2).2.2,
                  s2.length != (leadingFraction s2).2.2.length)
            | _ => ((0 : Nat), (0 : Nat), s1, false)).2.2.1.length ≤ s1.length := by
          split
          · simp only [List.length_cons]
            exact Nat.le_succ_of_le (leadingFractionFrom_length 0 0 false _)
          · exact Nat.le_refl _
        generalize (match s1 with
            | '.' :: s2 =>
                ((leadingFraction s2).1, (leadingFraction s2).2.1, (leadingFraction s2).2.2,
                  s2.length != (leadingFraction s2).2.2.length)
            | _ => ((0 : Nat), (0 : Nat), s1, false)) = F at h hF
        split at h
        · cases h
        · split at h
          · cases h
          · rename_i hu
            have hlt := length_dropWhile_lt (fun x => !endsUnit x) F.2.2.1 (by simpa using hu)
            have hfin : s3 = List.dropWhile (fun x => !endsUnit x) F.2.2.1 := by
              revert h
              repeat' split
              all_goals intro h
              all_goals first
                | (cases h; done)
                | (simp only [Option.some.injEq, Prod.mk.injEq] at h; exact h.1.symm)
            rw [hfin]
            omega

/-- The loop of `time.ParseDuration` never runs out of fuel: with at least the
length of the input as fuel the result does not depend on the fuel. -/
theorem parseDurationLoop_fuel (fuel : Nat) (l : List Char) (d : Nat)
    (h : l.length ≤ fuel) : parseDurationLoop fuel l d = parseDurationLoop l.length l d := by
  induction fuel using Nat.strong_induction_on generalizing l d with
  | _ fuel ih =>
    cases l with
    | nil => cases fuel <;> rfl
    | cons c cs =>
      cases fuel with
      | zero => simp at h
      | succ fuel =>
        simp only [List.length_cons, parseDurationLoop]
        cases hr : durationRound (c :: cs) d with
        | none => rfl
        | some r =>
          obtain ⟨s3, d1⟩ := r
          have hlen := durationRound_length _ _ _ _ hr
          simp only [List.length_cons] at hlen h
          simp only
          rw [ih fuel (Nat.lt_succ_self _) s3 d1 (by omega)]
          by_cases hc : cs.length = fuel
          · rw [hc]
            rw [ih fuel (Nat.lt_succ_self _) s3 d1 (by omega)]
          · rw [ih cs.length (by omega) s3 d1 (by omega)]

/-- The fraction of a unit is computed in `float64`: values from the table of
the tests of `time.ParseDuration` in package `time`.  The exact quotient of the
first one, rounded down, is one nanosecond less. -/
theorem parseDuration_fractions :
    ParseDuration "0.3333333333333333333h" = Except.ok 1200000000000 ∧
    ParseDuration "0.830103483285477580700h" = Except.ok 2988372539827 ∧
    ParseDuration "0.100000000000000000000h" = Except.ok 360000000000 ∧
    ParseDuration "9223372036854775.807us" = Except.ok 9223372036854775807 ∧
    ParseDuration "-2562047h47m16.854775808s" = Except.ok (-9223372036854775808) ∧
    ParseDuration "39h9m14.425s" = Except.ok 140954425000000 ∧
    ParseDuration "1.5h" = Except.ok 5400000000000 ∧
    fractionOfUnit 3333333333333333333 3600000000000 19 = 1200000000000 ∧
    3333333333333333333 * 3600000000000 / 10 ^ 19 = 1199999999999 := by
  set_option maxRecDepth 100000 in
  exact ⟨rfl, rfl, rfl, rfl, rfl, rfl, rfl, rfl, rfl⟩

theorem skipChar_some (c : Char) (l v : List Char) (h : skipChar c l = some v) : l = c :: v := by
  cases l with
  | nil => simp [skipChar] at h
  | cons x rest =>
    simp only [skipChar] at h
    split at h
    · rename_i hx
      simp only [Option.some.injEq] at h
      rw [hx, h]
    · cases h

theorem parseClock_shape (l : List Char) (r : Nat × Nat × Nat × Nat × List Char)
    (h : parseClock l = some r) :
    ∃ c rest, l = c :: rest ∧ isDigit c = true ∧ ∃ tl, l.dropWhile isDigit = ':' :: tl := by
  unfold parseClock at h
  cases hg : getnum l false with
  | none => simp [hg] at h
  | some p =>
    obtain ⟨hour, v1⟩ := p
    simp only [hg] at h
    split at h
    · cases h
    · cases hs : skipChar ':' v1 with
      | none => simp [hs] at h
      | some v2 =>
        have hv1 := skipChar_some _ _ _ hs
        subst hv1
        have hnd : isDigit ':' = false := by decide
        cases l with
        | nil => simp [getnum] at hg
        | cons c0 t =>
          cases t with
          | nil =>
            simp only [getnum] at hg
            split at hg
            · cases hg
            · simp at hg
          | cons c1 t2 =>
            simp only [getnum] at hg
            by_cases h0 : isDigit c0 = true
            · simp only [h0, Bool.not_true, Bool.false_eq_true, if_false] at hg
              by_cases h1 : isDigit c1 = true
              · simp only [h1, Bool.not_true, Bool.false_eq_true, if_false, Option.some.injEq,
                  Prod.mk.injEq] at hg
                refine ⟨c0, c1 :: t2, rfl, h0, v2, ?_⟩
                simp [List.dropWhile_cons, h0, h1, hg.2, hnd]
              · simp only [h1, Bool.not_false, if_true, Bool.false_eq_true, if_false,
                  Option.some.injEq, Prod.mk.injEq, List.cons.injEq] at hg
                refine ⟨c0, c1 :: t2, rfl, h0, t2, ?_⟩
                simp [List.dropWhile_cons, h0, hg.2.1, hnd]
            · simp [h0] at hg

theorem parseCalendar_shape (l : List Char) (r : Nat × Nat × Nat × List Char)
    (h : parseCalendar l = some r) :
    ∃ c rest, l = c :: rest ∧ isDigit c = true ∧ ∃ tl, l.dropWhile isDigit = '-' :: tl := by
  unfold parseCalendar at h
  split at h
  · rename_i y0 y1 y2 y3 v1
    split at h
    · cases h
    · rename_i hd
      simp only [Bool.not_eq_true, Bool.not_eq_false_eq_eq_true, Bool.and_eq_true] at hd
      cases hs : skipChar '-' v1 with
      | none => simp [hs] at h
      | some v2 =>
        have hv1 := skipChar_some _ _ _ hs
        subst hv1
        have hnd : isDigit '-' = false := by decide
        refine ⟨y0, _, rfl, hd.1.1.1, v2, ?_⟩
        simp [List.dropWhile_cons, hd.1.1.1, hd.1.1.2, hd.1.2, hd.2, hnd]
  · cases h

theorem parseDuration_rejects (s : String)
    (h : ∃ c rest, s.toList = c :: rest ∧ isDigit c = true ∧
      ∃ x tl, (x = ':' ∨ x = '-') ∧ s.toList.dropWhile isDigit = x :: tl) :
    ParseDuration s = Except.error (invalidDuration s) := by
  obtain ⟨c, rest, hl, hc, x, tl, hx, hd⟩ := h
  have hcm : c ≠ '-' := by rintro rfl; exact absurd hc (by decide)
  have hcp : c ≠ '+' := by rintro rfl; exact absurd hc (by decide)
  unfold ParseDuration parseDurationValue
  have hstrip : (match s.toList with
      | '-' :: rest => rest
      | '+' :: rest => rest
      | l => l) = s.toList := by
    rw [hl]
    split
    · rename_i heq; simp only [List.cons.injEq] at heq; exact absurd heq.1 hcm
    · rename_i heq; simp only [List.cons.injEq] at heq; exact absurd heq.1 hcp
    · rfl
  simp only [hstrip]
  have hne0 : s.toList ≠ ['0'] := by
    intro h0
    rw [h0] at hd
    simp [List.dropWhile, isDigit] at hd
  have hne : s.toList ≠ [] := by rw [hl]; simp
  simp only [hne0, hne, if_false]
  rw [parseDurationLoop_rejects _ _ _ x tl hd hx]

theorem parseTime_of_duration (s : String) (base : Time) (d : Duration)
    (h : ParseDuration s = Except.ok d) : parseTime s base = Except.ok (base + d) := by
  have hcal : parseCalendar s.toList = none := by
    cases hc : parseCalendar s.toList with
    | none => rfl
    | some r =>
      obtain ⟨c, rest, hl, hd, tl, ht⟩ := parseCalendar_shape _ _ hc
      rw [parseDuration_rejects s ⟨c, rest, hl, hd, '-', tl, Or.inr rfl, ht⟩] at h
      cases h
  have hclk : parseClock s.toList = none := by
    cases hc : parseClock s.toList with
    | none => rfl
    | some r =>
      obtain ⟨c, rest, hl, hd, tl, ht⟩ := parseClock_shape _ _ hc
      rw [parseDuration_rejects s ⟨c, rest, hl, hd, ':', tl, Or.inl rfl, ht⟩] at h
      cases h
  unfold parseTime parseDateTime parseTimeOfDay
  rw [hcal, hclk, h]

theorem parseDuration_empty : ParseDuration "" = Except.error (invalidDuration "") := rfl

theorem length_eq_zero_iff (s : String) : s.length = 0 ↔ s = "" := by
  constructor
  · intro h
    cases s with
    | mk l =>
      simp only [String.length, List.length_eq_zero] at h
      subst h
      rfl
  · rintro rfl; rfl

theorem parseDuration_error (s : String) (e : Error) (h : ParseDuration s = Except.error e) :
    e = invalidDuration s := by
  unfold ParseDuration at h
  split at h
  · cases h
  · simp only [Except.error.injEq] at h
    exact h.symm

theorem parseTime_error_external (input : String) (base : Time) (e : Error)
    (h : parseTime input base = Except.error e) : e = invalidDuration input := by
  unfold parseTime at h
  split at h
  · cases h
  · split at h
    · cases h
    · split at h
      · cases h
      · rename_i err hd
        simp only [Except.error.injEq] at h
        subst h
        exact parseDuration_error _ _ hd

theorem unparsable_parseTime (input : String) (base : Time) (h : unparsable input = true) :
    parseTime input base = Except.error (invalidDuration input) := by
  unfold unparsable at h
  split at h
  · rename_i e1 e2 e3 h1 h2 h3
    have : parseTime input base = Except.error e3 := by
      unfold parseTime
      rw [h1, h2, h3]
    rw [this, parseTime_error_external input base e3 this]
  · cases h

theorem toProgramming_error_external (r : AddProgrammingRequest) (now : Time) (e : Error)
    (h : r.ToProgramming now = Except.error e) : ∃ msg, e = Error.external msg := by
  unfold AddProgrammingRequest.ToProgramming at h
  split at h
  · rename_i err he
    simp only [Except.error.injEq] at h
    subst h
    exact ⟨_, parseTime_error_external _ _ _ he⟩
  · split at h
    · cases h
    · split at h
      · rename_i err he
        simp only [Except.error.injEq] at h
        subst h
        exact ⟨_, parseTime_error_external _ _ _ he⟩
      · cases h

/-- C6 (amended): when `AddProgramming` accepts a request with a non-empty end
field, the Task Record handed to the store has `Date = parseTime(start, now)`
and `Until = parseTime(end, Date)`.  No comparison between the two is made:
when the end field is a duration `d`, `Until` is `Date + d`, which is strictly
after `Date` exactly when `d` is positive. -/
theorem addProgramming_until_unchecked (isURL : String → Bool)
    (dbAdd : Programming → Option Error) (now : Time) (req : AddProgrammingRequest)
    (hend : req.Until ≠ "")
    (hacc : (AddProgramming isURL dbAdd now req).err = none) :
    ∃ date parsedUntil,
      parseTime req.Date now = Except.ok date ∧
      parseTime req.Until date = Except.ok parsedUntil ∧
      (AddProgramming isURL dbAdd now req).added =
        some { Url := req.Url, Name := req.Name, Date := date, Until := some parsedUntil } ∧
      ∀ d, ParseDuration req.Until = Except.ok d →
        parsedUntil = date + d ∧ (date < parsedUntil ↔ 0 < d) := by
  unfold AddProgramming at hacc ⊢
  cases hv : Validate isURL req with
  | some detail => simp [hv] at hacc
  | none =>
    simp only [hv] at hacc ⊢
    cases hp : req.ToProgramming now with
    | error err => simp [hp] at hacc
    | ok p =>
      simp only [hp]
      unfold AddProgrammingRequest.ToProgramming at hp
      cases hd : parseTime req.Date now with
      | error err => simp [hd] at hp
      | ok date =>
        simp only [hd] at hp
        have hlen : ¬ req.Until.length = 0 := fun h => hend ((length_eq_zero_iff _).mp h)
        simp only [hlen, if_false] at hp
        cases hu : parseTime req.Until date with
        | error err => simp [hu] at hp
        | ok parsedUntil =>
          simp only [hu, Except.ok.injEq] at hp
          refine ⟨date, parsedUntil, rfl, hu, by rw [hp], ?_⟩
          intro d hdur
          have := parseTime_of_duration req.Until date d hdur
          rw [hu] at this
          simp only [Except.ok.injEq] at this
          subst this
          refine ⟨rfl, ?_⟩
          unfold Time Duration at *
          constructor <;> intro h <;> omega

/-- C6 (counterexample): the request with start `5m` and end `0s` passes the
struct rules, is accepted, and the record handed to the store has `Until`
equal to `Date`, not strictly after it. -/
theorem addProgramming_accepts_zero_length :
    zeroLengthReq.Until ≠ "" ∧
    ∃ p u, (AddProgramming urlRule memoryAdd 0 zeroLengthReq).err = none ∧
      (AddProgramming urlRule memoryAdd 0 zeroLengthReq).added = some p ∧
      p.Until = some u ∧ ¬ (p.Date < u) :=
  ⟨by decide, _, _, rfl, rfl, rfl, by decide⟩

/-- C6 (witness): the accepted request with start `5m` and end `35m`. -/
theorem addProgramming_until_unchecked_witness :
    ∃ date parsedUntil,
      parseTime newsReq.Date 0 = Except.ok date ∧
      parseTime newsReq.Until date = Except.ok parsedUntil ∧
      (AddProgramming urlRule memoryAdd 0 newsReq).added =
        some { Url := newsReq.Url, Name := newsReq.Name, Date := date,
               Until := some parsedUntil } ∧
      ∀ d, ParseDuration newsReq.Until = Except.ok d →
        parsedUntil = date + d ∧ (date < parsedUntil ↔ 0 < d) :=
  addProgramming_until_unchecked urlRule memoryAdd 0 newsReq (by decide) rfl

/-- C8: when the start field is a duration string `d1`, `ToProgramming` at
instant `now` returns a Task Record with `Date = now + d1`; with an empty end
field `Until` is absent, and when the end field is a duration string `d2`,
`Until = Date + d2 = now + d1 + d2`: the relative stop is resolved against the
resolved start time, not against `now`. -/
theorem toProgramming_relative (r : AddProgrammingRequest) (now : Time) (d1 : Duration)
    (hstart : ParseDuration r.Date = Except.ok d1) :
    (r.Until = "" →
      r.ToProgramming now =
        Except.ok { Url := r.Url, Name := r.Name, Date := now + d1, Until := none }) ∧
    (∀ d2, ParseDuration r.Until = Except.ok d2 →
      r.ToProgramming now =
        Except.ok { Url := r.Url, Name := r.Name, Date := now + d1,
                    Until := some (now + d1 + d2) }) := by
  have h1 := parseTime_of_duration r.Date now d1 hstart
  constructor
  · intro he
    unfold AddProgrammingRequest.ToProgramming
    rw [h1]
    simp [he]
  · intro d2 hd2
    have hne : ¬ r.Until.length = 0 := by
      intro h
      rw [(length_eq_zero_iff _).mp h, parseDuration_empty] at hd2
      cases hd2
    have h2 := parseTime_of_duration r.Until (now + d1) d2 hd2
    unfold AddProgrammingRequest.ToProgramming
    rw [h1]
    simp only [hne, if_false]
    rw [h2]

/-- C8 (witness): start `5m`, end `35m`, at instant 1000. -/
theorem toProgramming_relative_witness :
    newsReq.ToProgramming 1000 =
      Except.ok { Url := "http://x", Name := "news", Date := 1000 + 300000000000,
                  Until := some (1000 + 300000000000 + 2100000000000) } :=
  (toProgramming_relative newsReq 1000 300000000000 rfl).2 2100000000000 rfl

/-- C9 (amended): adding the task with start `5m` and end `35m` at instant `T`
produces a Task Record whose start time is `T + 5m` and whose stop time is
`T + 40m`, the end being resolved against the resolved start; the instant
passed to `scheduleRun` for the stop action is `T + 40m`. -/
theorem news_stop_at_forty_minutes (T : Time) :
    newsReq.ToProgramming T =
      Except.ok { Url := "http://x", Name := "news", Date := T + 5 * Minute,
                  Until := some (T + 40 * Minute) } ∧
    deadline { Url := "http://x", Name := "news", Date := T + 5 * Minute,
               Until := some (T + 40 * Minute) } Waiter.stop = T + 40 * Minute := by
  have h := (toProgramming_relative newsReq T 300000000000 rfl).2 2100000000000 rfl
  have e1 : T + 5 * Minute = T + 300000000000 := by unfold Minute; norm_num
  have e2 : T + 40 * Minute = T + 300000000000 + 2100000000000 := by
    unfold Minute Time Duration at *; omega
  rw [e1, e2]
  exact ⟨h, rfl⟩

/-- C9 (counterexample): at `T = 0` the stop time of the record is not
`T + 35m`, and neither is the instant the stop action is armed for. -/
theorem news_stop_not_at_thirty_five_minutes :
    ∃ p u, newsReq.ToProgramming 0 = Except.ok p ∧ p.Date = 0 + 5 * Minute ∧
      p.Until = some u ∧ u ≠ 0 + 35 * Minute ∧ deadline p Waiter.stop ≠ 0 + 35 * Minute :=
  ⟨_, _, rfl, by decide, rfl, by decide, by decide⟩

/-- C10: for a request that passes the struct rules but whose start string, or
non-empty end string, parses as none of the three forms, `AddProgramming`
returns the parser's error as it is: `errors.Is(err, ErrValidationError)` is
false, the handler answers 500 and nothing is handed to the store.  The claim
asks for an error of the validation kind. -/
theorem addProgramming_parse_error_is_not_validation (isURL : String → Bool)
    (dbAdd : Programming → Option Error) (now : Time) (req : AddProgrammingRequest)
    (hvalid : Validate isURL req = none)
    (hbad : unparsable req.Date = true ∨ (req.Until ≠ "" ∧ unparsable req.Until = true)) :
    ∃ e, (AddProgramming isURL dbAdd now req).err = some e ∧
      errorsIs e Error.ErrValidationError = false ∧
      addStatus (AddProgramming isURL dbAdd now req).err = 500 ∧
      (AddProgramming isURL dbAdd now req).added = none := by
  have hfail : ∃ e, req.ToProgramming now = Except.error e := by
    unfold AddProgrammingRequest.ToProgramming
    cases hd : parseTime req.Date now with
    | error err => exact ⟨err, rfl⟩
    | ok date =>
      rcases hbad with hb | ⟨hne, hb⟩
      · rw [unparsable_parseTime _ now hb] at hd
        cases hd
      · have hlen : ¬ req.Until.length = 0 := fun h => hne ((length_eq_zero_iff _).mp h)
        simp only [hlen, if_false]
        rw [unparsable_parseTime _ date hb]
        exact ⟨_, rfl⟩
  obtain ⟨e, he⟩ := hfail
  obtain ⟨msg, hmsg⟩ := toProgramming_error_external req now e he
  subst hmsg
  refine ⟨Error.external msg, ?_, ?_, ?_, ?_⟩
  · simp [AddProgramming, hvalid, he]
  · simp [errorsIs]
  · simp [AddProgramming, hvalid, he, addStatus, errorsIs]
  · simp [AddProgramming, hvalid, he]

/-- C10 (witness): the request with start `tomorrow`. -/
theorem addProgramming_parse_error_is_not_validation_witness :
    Validate urlRule badStartReq = none ∧ unparsable badStartReq.Date = true ∧
    ∃ e, (AddProgramming urlRule memoryAdd 0 badStartReq).err = some e ∧
      errorsIs e Error.ErrValidationError = false ∧
      addStatus (AddProgramming urlRule memoryAdd 0 badStartReq).err = 500 ∧
      (AddProgramming urlRule memoryAdd 0 badStartReq).added = none :=
  ⟨rfl, rfl,
    addProgramming_parse_error_is_not_validation urlRule memoryAdd 0 badStartReq rfl
      (Or.inl rfl)⟩

theorem digitChar_isDigit (n : Nat) (h : n < 10) :
    isDigit (digitChar n) = true ∧ digitVal (digitChar n) = n := by
  interval_cases n <;> exact ⟨by decide, by decide⟩

theorem parseClock_clockString (h m s : Nat) (hh : h < 24) (hm : m < 60) (hs : s < 60) :
    parseClock (clockString h m s).toList = some (h, m, s, 0, []) := by
  have a1 := digitChar_isDigit (h / 10) (by omega)
  have a2 := digitChar_isDigit (h % 10) (by omega)
  have a3 := digitChar_isDigit (m / 10) (by omega)
  have a4 := digitChar_isDigit (m % 10) (by omega)
  have a5 := digitChar_isDigit (s / 10) (by omega)
  have a6 := digitChar_isDigit (s % 10) (by omega)
  have e1 : h / 10 * 10 + h % 10 = h := by omega
  have e2 : m / 10 * 10 + m % 10 = m := by omega
  have e3 : s / 10 * 10 + s % 10 = s := by omega
  simp [clockString, parseClock, getnum, skipChar, a1.1, a1.2, a2.1, a2.2, a3.1, a3.2, a4.1,
    a4.2, a5.1, a5.2, a6.1, a6.2, e1, e2, e3]
  omega

theorem parseCalendar_clockString (h m s : Nat) :
    parseCalendar (clockString h m s).toList = none := by
  have hnd : isDigit ':' = false := by decide
  simp [clockString, parseCalendar, hnd]

theorem date_year_zero_negative (h m s : Nat) (hh : h < 24) (hm : m < 60) (hs : s < 60) :
    Date 0 1 1 h m s 0 < 0 := by
  have e : daysBeforeYear 0 = -366 := by decide
  have l : isLeap 0 = true := by decide
  simp only [Date, e, daysBefore, l]
  unfold Time
  norm_num
  omega

/-- C7: for every time-of-day `HH:MM:SS` within range and every base instant,
`parseTime` returns the instant of that time on January 1 of year 0, which lies
before the zero instant `0001-01-01T00:00:00Z`.  The claim asks for today's
date. -/
theorem parseTime_timeOfDay_is_year_zero (h m s : Nat) (base : Time)
    (hh : h < 24) (hm : m < 60) (hs : s < 60) :
    parseTime (clockString h m s) base = Except.ok (Date 0 1 1 h m s 0) ∧
    Date 0 1 1 h m s 0 < 0 := by
  refine ⟨?_, date_year_zero_negative h m s hh hm hs⟩
  unfold parseTime parseDateTime parseTimeOfDay
  rw [parseCalendar_clockString, parseClock_clockString h m s hh hm hs]

/-- C7 (witness): the input `10:00:00` with base `2031-01-01T09:00:00Z` yields
`0000-01-01T10:00:00Z`, not `2031-01-01T10:00:00Z`. -/
theorem parseTime_ten_oclock :
    clockString 10 0 0 = "10:00:00" ∧
    parseTime (clockString 10 0 0) (Date 2031 1 1 9 0 0 0) = Except.ok (Date 0 1 1 10 0 0 0) ∧
    Date 0 1 1 10 0 0 0 < 0 ∧
    Date 0 1 1 10 0 0 0 ≠ Date 2031 1 1 10 0 0 0 ∧
    (0 : Time) < Date 2031 1 1 9 0 0 0 :=
  ⟨by decide,
    (parseTime_timeOfDay_is_year_zero 10 0 0 (Date 2031 1 1 9 0 0 0) (by decide) (by decide)
      (by decide)).1,
    (parseTime_timeOfDay_is_year_zero 10 0 0 (Date 2031 1 1 9 0 0 0) (by decide) (by decide)
      (by decide)).2,
    by decide, by decide⟩

/-! ## A failing start -/

theorem runCount_append (l1 l2 : List Obs) : runCount (l1 ++ l2) = runCount l1 + runCount l2 := by
  simp [runCount, callsOf_append, List.countP_append]

theorem recordCount_append (l1 l2 : List Obs) :
    recordCount (l1 ++ l2) = recordCount l1 + recordCount l2 := by
  simp [recordCount, List.count_append]

theorem startInv_init (t0 : Time) : StartInv (State.init t0) :=
  ⟨rfl, fun e h => by simp [State.init] at h⟩

/-- Every step preserves the invariant of a failing start. -/
theorem startInv_step {p : Programming} {s s1 : State} {a : Action}
    (h : StartInv s) (hs : step p s a = some s1) : StartInv s1 := by
  obtain ⟨h1, h2⟩ := h
  cases a with
  | advance d => simp only [Vcr.step, Option.some.injEq] at hs; subst hs; exact ⟨h1, h2⟩
  | signalDone => simp only [Vcr.step, Option.some.injEq] at hs; subst hs; exact ⟨h1, h2⟩
  | schedEnter =>
    simp only [Vcr.step] at hs
    split at hs
    · rename_i hpc
      have hne : ∀ e, s.startW ≠ WaiterPc.sent e := by
        intro e he
        rcases h2 e he with h | h | h <;> rw [hpc] at h <;> cases h
      split at hs <;> simp only [Option.some.injEq] at hs <;> subst hs
      · exact ⟨h1, fun e he => by simp at he⟩
      · exact ⟨h1, fun e he => absurd he (hne e)⟩
    · simp at hs
  | schedRecvDone =>
    simp only [Vcr.step] at hs
    split at hs
    · rename_i hpc
      split at hs
      · simp only [Option.some.injEq] at hs; subst hs
        refine ⟨h1, fun e he => ?_⟩
        rcases h2 e he with h | h | h <;> rw [hpc] at h <;> cases h
      · simp at hs
    · simp at hs
  | schedRecvErr w =>
    simp only [Vcr.step] at hs
    split at hs
    · rename_i e hpc hw
      simp only [Option.some.injEq] at hs; subst hs
      cases w <;> simp only [State.pc] at hw
      · refine ⟨h1, fun e1 he => ?_⟩
        simp only [State.setPc, WaiterPc.sent.injEq] at he
        subst he
        exact Or.inl rfl
      · refine ⟨h1, fun e1 he => ?_⟩
        simp only [State.setPc] at he
        rcases h2 e1 he with h | h | h <;> rw [hpc] at h <;> cases h
    · simp at hs
  | schedCancel =>
    simp only [Vcr.step] at hs
    split at hs
    · rename_i hpc
      simp only [Option.some.injEq] at hs; subst hs
      refine ⟨h1, fun e he => ?_⟩
      rcases h2 e he with h | h | h <;> rw [hpc] at h <;> cases h
    · rename_i e0 hpc
      simp only [Option.some.injEq] at hs; subst hs
      refine ⟨h1, fun e he => ?_⟩
      rcases h2 e he with h | h | h <;> rw [hpc] at h <;> cases h
      exact Or.inr (Or.inl rfl)
    · simp at hs
  | schedReturn =>
    simp only [Vcr.step] at hs
    split at hs
    · rename_i r hpc
      simp only [Option.some.injEq] at hs; subst hs
      refine ⟨?_, fun e he => ?_⟩
      · show runCount (s.log ++ [Obs.returned r]) = recordCount (s.log ++ [Obs.returned r])
        rw [runCount_append, recordCount_append, h1]
        rfl
      · rcases h2 e he with h | h | h <;> rw [hpc] at h <;> cases h
        exact Or.inr (Or.inr rfl)
    · simp at hs
  | begin w =>
    simp only [Vcr.step] at hs
    split at hs
    · rename_i hw
      simp only [Option.some.injEq] at hs; subst hs
      cases w <;> simp only [State.pc] at hw
      · exact ⟨h1, fun e he => by simp [State.setPc] at he⟩
      · exact ⟨h1, fun e he => h2 e he⟩
    · simp at hs
  | timerFires w =>
    simp only [Vcr.step] at hs
    split at hs
    · rename_i hw
      split at hs
      · simp only [Option.some.injEq] at hs; subst hs
        cases w <;> simp only [State.pc] at hw
        · refine ⟨?_, fun e he => by simp [invoke, State.setPc] at he⟩
          show runCount (s.log ++ _) = recordCount (s.log ++ _)
          rw [runCount_append, recordCount_append, h1]
          rfl
        · refine ⟨?_, fun e he => h2 e he⟩
          show runCount (s.log ++ _) = recordCount (s.log ++ _)
          rw [runCount_append, recordCount_append, h1]
          rfl
      · simp at hs
    · simp at hs
  | ctxDone w =>
    simp only [Vcr.step] at hs
    split at hs
    · rename_i hw
      split at hs
      · split at hs
        · simp only [Option.some.injEq] at hs; subst hs
          cases w <;> simp only [State.pc] at hw
          · refine ⟨?_, fun e he => by simp [invoke, State.setPc] at he⟩
            show runCount (s.log ++ _) = recordCount (s.log ++ _)
            rw [runCount_append, recordCount_append, h1]
            rfl
          · refine ⟨?_, fun e he => h2 e he⟩
            show runCount (s.log ++ _) = recordCount (s.log ++ _)
            rw [runCount_append, recordCount_append, h1]
            rfl
        · simp only [Option.some.injEq] at hs; subst hs
          cases w <;> simp only [State.pc] at hw
          · exact ⟨h1, fun e he => by simp [leave, State.setPc] at he⟩
          · exact ⟨h1, fun e he => h2 e he⟩
      · simp at hs
    · simp at hs
  | runReturns r =>
    simp only [Vcr.step] at hs
    split at hs
    · split at hs
      · simp only [Option.some.injEq] at hs; subst hs
        exact ⟨h1, fun e he => by simp [leave, State.setPc] at he⟩
      · simp only [Option.some.injEq] at hs; subst hs
        exact ⟨h1, fun e he => by simp [leave, State.setPc] at he⟩
    · simp at hs
  | findReturns r =>
    simp only [Vcr.step] at hs
    split at hs
    · split at hs
      · simp only [Option.some.injEq] at hs; subst hs
        exact ⟨h1, fun e he => h2 e he⟩
      · simp only [Option.some.injEq] at hs; subst hs
        refine ⟨?_, fun e he => h2 e he⟩
        show runCount (s.log ++ _) = recordCount (s.log ++ _)
        rw [runCount_append, recordCount_append, h1]
        rfl
    · simp at hs
  | killReturns r =>
    simp only [Vcr.step] at hs
    split at hs
    · simp only [Option.some.injEq] at hs; subst hs
      cases r <;> exact ⟨h1, fun e he => h2 e he⟩
    · simp at hs

theorem startInv_exec {p : Programming} (tr : List Action) {s s1 : State}
    (h : StartInv s) (hs : exec p s tr = some s1) : StartInv s1 := by
  induction tr generalizing s with
  | nil =>
    simp only [Vcr.exec, Option.some.injEq] at hs
    subst hs
    exact h
  | cons a rest ih =>
    simp only [Vcr.exec] at hs
    cases hstep : Vcr.step p s a with
    | none => simp [hstep] at hs
    | some s2 =>
      rw [hstep] at hs
      exact ih (startInv_step h hstep) hs

/-- C11 (amended): when `runtime.Run` has answered the start waiter with the
error `e`, then in every execution `startedRecording` is false and `record` has
been invoked, and `Run` called, exactly once.  `Schedule` returns `e` when its
`select` has received it from the start waiter, and as long as the coordinator
is still in its `select` the steps receive, `cancel()`, return are enabled and
end with `Schedule` returning `e`.  No `stop` has been invoked, and no Runtime
Port call other than `Run` made, when there is no stop time, or while the clock
has not reached the stop time, or once the stop waiter has left through the
cancelled branch. -/
theorem schedule_start_failure (p : Programming) (t0 : Time) (tr : List Action) (s : State)
    (e : Error)
    (hrun : exec p (State.init t0) tr = some s)
    (hfail : s.startW = WaiterPc.sending e ∨ s.startW = WaiterPc.sent e) :
    s.startedRecording = false ∧
    recordCount s.log = 1 ∧ runCount s.log = 1 ∧
    (s.startW = WaiterPc.sent e → ∀ r, s.sched = SchedPc.returned r → r = some e) ∧
    (s.startW = WaiterPc.sending e → s.sched = SchedPc.selecting →
      ∃ s3, exec p s [Action.schedRecvErr Waiter.start, Action.schedCancel,
          Action.schedReturn] = some s3 ∧
        s3.sched = SchedPc.returned (some e) ∧ s3.startedRecording = false ∧
        runCount s3.log = 1) ∧
    ((p.hasStop = false ∨ s.now < deadline p Waiter.stop ∨ s.stopW = WaiterPc.dropped) →
      stopCount s.log = 0 ∧ ∀ c ∈ callsOf s.log, c = Call.Run p.Name) := by
  have hi : Inv p s := Inv.exec tr (Inv.init p t0) hrun
  have hj : StartInv s := startInv_exec tr (startInv_init t0) hrun
  have hran : s.startW.ranOp = true := by rcases hfail with h | h <;> rw [h] <;> rfl
  have hst : s.startedRecording = false := by
    cases hs : s.startedRecording with
    | false => rfl
    | true =>
      have := hi.started hs
      rcases hfail with h | h <;> rw [h] at this <;> cases this
  have hrec : recordCount s.log = 1 := by rw [hi.recCnt, hran]; rfl
  refine ⟨hst, hrec, by rw [hj.runs, hrec], ?_, ?_, ?_⟩
  · intro hsent r hr
    rcases hj.sentStart e hsent with h | h | h <;> rw [hr] at h
    · cases h
    · cases h
    · simp only [SchedPc.returned.injEq] at h
      exact h
  · intro hsend hsel
    have hrc : runCount s.log = 1 := by rw [hj.runs, hrec]
    simp only [exec, step, hsel, hsend, State.pc, State.setPc, Option.bind_some]
    refine ⟨_, rfl, rfl, hst, ?_⟩
    show runCount (s.log ++ [Obs.returned (some e)]) = 1
    rw [runCount_append, hrc]
    rfl
  · intro hcond
    have hnr : s.stopW.ranOp = false := by
      rcases hcond with h | h | h
      · rw [hi.noStop h]; rfl
      · cases hr : s.stopW.ranOp with
        | false => rfl
        | true =>
          rcases hi.stopRan hr with h1 | h1
          · exact absurd h1 (not_le.mpr h)
          · rw [hst] at h1; cases h1.1
      · rw [h]; rfl
    refine ⟨?_, hi.runOnly hnr⟩
    rw [hi.stopCnt, hnr]; rfl

/-- C11 (counterexample): two executions in which `Run` answers with an error.
First, without stop time: the signal on `done` arrives while `Run` is in
flight, the coordinator takes it and `Schedule` returns nil; the start waiter is
left blocked on `errChan <- err`.  Second, start at 10 and stop at 100: `Run`
is still in flight when the stop timer fires, so `stop` is invoked and
`FindByName` called before `Run` answers with the error that `Schedule` then
returns. -/
theorem schedule_start_failure_lost :
    (∃ s1 s2, exec jobB (State.init 0) runInFlight = some s1 ∧
      s1.startW = WaiterPc.running ∧
      exec jobB s1 (Action.signalDone :: cancelAndReturn ++
        [Action.runReturns (Except.error runFailed)]) = some s2 ∧
      s2.startW = WaiterPc.sending runFailed ∧
      s2.sched = SchedPc.returned none) ∧
    (jobA.Date < 100 ∧ jobA.Until = some 100 ∧
      ∃ s1 s2, exec jobA (State.init 0) stopDuringRun = some s1 ∧
      s1.startW = WaiterPc.running ∧
      exec jobA s1 (Action.runReturns (Except.error runFailed) :: startErrorAndReturn)
        = some s2 ∧
      s2.sched = SchedPc.returned (some runFailed) ∧
      stopCount s2.log = 1 ∧
      callsOf s2.log = [Call.Run "news", Call.FindByName "news"]) :=
  ⟨⟨_, _, rfl, rfl, rfl, rfl, rfl⟩,
    ⟨by decide, rfl, _, _, rfl, rfl, rfl, rfl, by decide, rfl⟩⟩

/-- C11 (witness): start at 10, stop at 100, `Run` answers with an error at
instant 10. -/
theorem schedule_start_failure_witness :
    ∃ s, exec jobA (State.init 0)
        startFails = some s ∧
      s.startW = WaiterPc.sending runFailed ∧ s.sched = SchedPc.selecting ∧
      s.now < deadline jobA Waiter.stop ∧
      s.startedRecording = false ∧ recordCount s.log = 1 ∧ runCount s.log = 1 ∧
      (∃ s3, exec jobA s startErrorAndReturn = some s3 ∧
        s3.sched = SchedPc.returned (some runFailed) ∧ s3.startedRecording = false ∧
        runCount s3.log = 1) ∧
      stopCount s.log = 0 ∧ ∀ c ∈ callsOf s.log, c = Call.Run jobA.Name :=
  ⟨_, rfl, rfl, rfl, by decide,
    (schedule_start_failure jobA 0 startFails _ runFailed rfl (Or.inl rfl)).1,
    (schedule_start_failure jobA 0 startFails _ runFailed rfl (Or.inl rfl)).2.1,
    (schedule_start_failure jobA 0 startFails _ runFailed rfl (Or.inl rfl)).2.2.1,
    (schedule_start_failure jobA 0 startFails _ runFailed rfl (Or.inl rfl)).2.2.2.2.1 rfl rfl,
    (schedule_start_failure jobA 0 startFails _ runFailed rfl (Or.inl rfl)).2.2.2.2.2
      (Or.inr (Or.inl (by decide)))⟩

/-! ## The process and its shutdown barrier -/

theorem Heap.add_length (h : Heap) (a : Nat) (delta : Int) :
    (h.add a delta).length = h.length := by
  induction h generalizing a with
  | nil => rfl
  | cons c rest ih =>
    cases a with
    | zero => rfl
    | succ a => simp [Heap.add, ih]

theorem Heap.counter_add_ne (h : Heap) (a b : Nat) (delta : Int) (hne : a ≠ b) :
    (h.add a delta).counter b = h.counter b := by
  induction h generalizing a b with
  | nil => rfl
  | cons c rest ih =>
    cases a with
    | zero =>
      cases b with
      | zero => exact absurd rfl hne
      | succ b => rfl
    | succ a =>
      cases b with
      | zero => rfl
      | succ b =>
        have := ih a b (fun h => hne (by rw [h]))
        simpa [Heap.add, Heap.counter] using this

theorem Heap.counter_add_same (h : Heap) (a : Nat) (delta : Int) (hlt : a < h.length) :
    (h.add a delta).counter a = h.counter a + delta := by
  induction h generalizing a with
  | nil => simp at hlt
  | cons c rest ih =>
    cases a with
    | zero => rfl
    | succ a =>
      have := ih a (by simpa using hlt)
      simpa [Heap.add, Heap.counter] using this

theorem procInv_init (t0 : Time) : ProcInv (Process.init t0) :=
  ⟨fun _ => ⟨rfl, rfl, rfl, rfl⟩, fun h => absurd rfl h, fun j hj => by simp [Process.init] at hj⟩

/-- Every step of the process preserves its invariant. -/
theorem procInv_step {s s1 : Process} {a : PAction} (h : ProcInv s)
    (hs : pstep s a = some s1) : ProcInv s1 := by
  obtain ⟨h1, h2, h3⟩ := h
  cases a with
  | build =>
    simp only [pstep] at hs
    split at hs
    · rename_i hm
      obtain ⟨hl, hsv, hj, hh⟩ := h1 hm
      simp only [Option.some.injEq] at hs; subst hs
      refine ⟨fun h => MainPc.noConfusion h, fun _ => ?_, h3⟩
      simp [Heap.alloc, hh, Heap.counter, TaskPc.weight]
    · simp at hs
  | loopEnter =>
    simp only [pstep] at hs
    split at hs
    · rename_i hl
      have hm : s.main ≠ MainPc.start := by
        intro hm; rw [(h1 hm).1] at hl; cases hl
      obtain ⟨b1, b2, b3, b4⟩ := h2 hm
      simp only [Option.some.injEq] at hs; subst hs
      refine ⟨fun h => absurd h hm, fun _ => ⟨?_, b2, b3, ?_⟩, h3⟩
      · show (s.heap.add s.runWg 1).length = 2
        rw [Heap.add_length, b1]
      · show (s.heap.add s.runWg 1).counter 1 = TaskPc.registered.weight + s.server.weight
        rw [b3, Heap.counter_add_same _ _ _ (by omega), b4, hl]
        simp only [TaskPc.weight]
        omega
    · simp at hs
  | serverEnter =>
    simp only [pstep] at hs
    split at hs
    · rename_i hl
      have hm : s.main ≠ MainPc.start := by
        intro hm; rw [(h1 hm).2.1] at hl; cases hl
      obtain ⟨b1, b2, b3, b4⟩ := h2 hm
      simp only [Option.some.injEq] at hs; subst hs
      refine ⟨fun h => absurd h hm, fun _ => ⟨?_, b2, b3, ?_⟩, h3⟩
      · show (s.heap.add s.runWg 1).length = 2
        rw [Heap.add_length, b1]
      · show (s.heap.add s.runWg 1).counter 1 = s.loop.weight + TaskPc.registered.weight
        rw [b3, Heap.counter_add_same _ _ _ (by omega), b4, hl]
        simp only [TaskPc.weight]
        omega
    · simp at hs
  | tick clock listing =>
    simp only [pstep] at hs
    split at hs
    · rename_i hl
      have hm : s.main ≠ MainPc.start := by
        intro hm; rw [(h1 hm).1] at hl; cases hl
      obtain ⟨b1, b2, b3, b4⟩ := h2 hm
      simp only [Option.some.injEq] at hs; subst hs
      refine ⟨fun h => absurd h hm, fun _ => ⟨b1, b2, b3, b4⟩, ?_⟩
      intro j hj
      simp only [List.mem_append, List.mem_map] at hj
      rcases hj with hj | ⟨x, _, hx⟩
      · exact h3 j hj
      · rw [← hx]; exact b2
    · simp at hs
  | advance d =>
    simp only [pstep, Option.some.injEq] at hs; subst hs
    refine ⟨fun hm => ?_, h2, ?_⟩
    · obtain ⟨a1, a2, a3, a4⟩ := h1 hm
      exact ⟨a1, a2, by simp [a3], a4⟩
    · intro j hj
      simp only [List.mem_map] at hj
      obtain ⟨x, hx, rfl⟩ := hj
      exact h3 x hx
  | osSignal =>
    simp only [pstep] at hs
    split at hs
    · rename_i hm
      have hm2 : s.main ≠ MainPc.start := by rw [hm]; simp
      simp only [Option.some.injEq] at hs; subst hs
      exact ⟨fun h => MainPc.noConfusion h, fun _ => h2 hm2, h3⟩
    · simp at hs
  | cancel =>
    simp only [pstep] at hs
    split at hs
    · rename_i hm
      have hm2 : s.main ≠ MainPc.start := by rw [hm]; simp
      simp only [Option.some.injEq] at hs; subst hs
      exact ⟨fun h => MainPc.noConfusion h, fun _ => h2 hm2, h3⟩
    · simp at hs
  | loopShutdown =>
    simp only [pstep] at hs
    split at hs
    · rename_i hl
      have hm : s.main ≠ MainPc.start := by
        intro hm; rw [(h1 hm).1] at hl; cases hl
      obtain ⟨b1, b2, b3, b4⟩ := h2 hm
      split at hs
      · simp only [Option.some.injEq] at hs; subst hs
        refine ⟨fun h => absurd h hm, fun _ => ⟨?_, b2, b3, ?_⟩, ?_⟩
        · show (s.heap.add s.runWg (-1)).length = 2
          rw [Heap.add_length, b1]
        · show (s.heap.add s.runWg (-1)).counter 1 = TaskPc.returned.weight + s.server.weight
          rw [b3, Heap.counter_add_same _ _ _ (by omega), b4, hl]
          simp only [TaskPc.weight]
          omega
        · intro j hj
          simp only [List.mem_map] at hj
          obtain ⟨x, hx, rfl⟩ := hj
          exact h3 x hx
      · simp at hs
    · simp at hs
  | serverShutdown =>
    simp only [pstep] at hs
    split at hs
    · rename_i hl
      have hm : s.main ≠ MainPc.start := by
        intro hm; rw [(h1 hm).2.1] at hl; cases hl
      obtain ⟨b1, b2, b3, b4⟩ := h2 hm
      split at hs
      · simp only [Option.some.injEq] at hs; subst hs
        refine ⟨fun h => absurd h hm, fun _ => ⟨?_, b2, b3, ?_⟩, h3⟩
        · show (s.heap.add s.runWg (-1)).length = 2
          rw [Heap.add_length, b1]
        · show (s.heap.add s.runWg (-1)).counter 1 = s.loop.weight + TaskPc.returned.weight
          rw [b3, Heap.counter_add_same _ _ _ (by omega), b4, hl]
          simp only [TaskPc.weight]
          omega
      · simp at hs
    · simp at hs
  | serverFails =>
    simp only [pstep] at hs
    split at hs
    · rename_i hl
      have hm : s.main ≠ MainPc.start := by
        intro hm; rw [(h1 hm).2.1] at hl; cases hl
      obtain ⟨b1, b2, b3, b4⟩ := h2 hm
      simp only [Option.some.injEq] at hs; subst hs
      refine ⟨fun h => absurd h hm, fun _ => ⟨?_, b2, b3, ?_⟩, h3⟩
      · show (s.heap.add s.runWg (-1)).length = 2
        rw [Heap.add_length, b1]
      · show (s.heap.add s.runWg (-1)).counter 1 = s.loop.weight + TaskPc.returned.weight
        rw [b3, Heap.counter_add_same _ _ _ (by omega), b4, hl]
        simp only [TaskPc.weight]
        omega
    · simp at hs
  | waitReturns =>
    simp only [pstep] at hs
    split at hs
    · rename_i hm
      have hm2 : s.main ≠ MainPc.start := by rw [hm]; simp
      split at hs
      · simp only [Option.some.injEq] at hs; subst hs
        exact ⟨fun h => MainPc.noConfusion h, fun _ => h2 hm2, h3⟩
      · simp at hs
    · simp at hs
  | job i a =>
    simp only [pstep] at hs
    split at hs
    · cases hg : s.jobs[i]? with
      | none => simp [hg] at hs
      | some j =>
        simp only [hg] at hs
        cases hst : Vcr.step j.programming j.state a with
        | none => simp [hst] at hs
        | some st =>
          simp only [hst, Option.some.injEq] at hs; subst hs
          have hjm : j ∈ s.jobs := List.getElem?_mem hg
          have hjw := h3 j hjm
          have hm : s.main ≠ MainPc.start := by
            intro hm
            rw [(h1 hm).2.2.1] at hjm
            simp at hjm
          obtain ⟨b1, b2, b3, b4⟩ := h2 hm
          refine ⟨fun h => absurd h hm, fun _ => ⟨?_, b2, b3, ?_⟩, ?_⟩
          · show (s.heap.add j.wg _).length = 2
            rw [Heap.add_length, b1]
          · show (s.heap.add j.wg _).counter 1 = s.loop.weight + s.server.weight
            rw [hjw, Heap.counter_add_ne _ 0 1 _ (by decide), b4]
          · intro x hx
            rcases List.mem_or_eq_of_mem_set hx with hx | hx
            · exact h3 x hx
            · rw [hx]; exact hjw
    · simp at hs

theorem procInv_exec (tr : List PAction) {s s1 : Process} (h : ProcInv s)
    (hs : pexec s tr = some s1) : ProcInv s1 := by
  induction tr generalizing s with
  | nil =>
    simp only [pexec, Option.some.injEq] at hs
    subst hs
    exact h
  | cons a rest ih =>
    simp only [pexec] at hs
    cases hstep : pstep s a with
    | none => simp [hstep] at hs
    | some s2 =>
      rw [hstep] at hs
      exact ih (procInv_step h hstep) hs

/-- C12: in every execution of the process, once `run` has built its objects,
the wait group that `NewVcr` allocated and gave to every `Recorder` is another
allocation than the wait group `run` waits on; every Job registers on the
former and none on the latter; the counter of the latter is made of the scan
loop and the server alone, so `wg.Wait()` returns as soon as these two have
returned, whatever the Jobs are doing.  The claim asks for one shared wait
group. -/
theorem shutdown_barrier_ignores_jobs (t0 : Time) (tr : List PAction) (s : Process)
    (hrun : pexec (Process.init t0) tr = some s) (hbuilt : s.main ≠ MainPc.start) :
    s.vcrWg ≠ s.runWg ∧
    (∀ j ∈ s.jobs, j.wg = s.vcrWg ∧ j.wg ≠ s.runWg) ∧
    s.heap.counter s.runWg = s.loop.weight + s.server.weight ∧
    (s.main = MainPc.waiting → s.loop ≠ TaskPc.registered → s.server ≠ TaskPc.registered →
      pstep s PAction.waitReturns = some { s with main := MainPc.exited }) := by
  have hi := procInv_exec tr (procInv_init t0) hrun
  obtain ⟨b1, b2, b3, b4⟩ := hi.built hbuilt
  have hcnt : s.heap.counter s.runWg = s.loop.weight + s.server.weight := by
    rw [b3]; exact b4
  refine ⟨by rw [b2, b3]; decide, fun j hj => ?_, hcnt, ?_⟩
  · have := hi.jobsWg j hj
    rw [b2, b3, this]
    exact ⟨rfl, by decide⟩
  · intro hm hl hsv
    have h0 : s.heap.counter s.runWg = 0 := by
      rw [hcnt]
      have w1 : s.loop.weight = 0 := by
        cases hlp : s.loop <;> first | rfl | exact absurd hlp hl
      have w2 : s.server.weight = 0 := by
        cases hsp : s.server <;> first | rfl | exact absurd hsp hsv
      rw [w1, w2]
      rfl
    simp [pstep, hm, h0]

/-- C12 (witness): a Job is armed and blocked in its three goroutines when the
process is signalled; the scan loop and the server return and `wg.Wait()`
returns while `Schedule` and both `scheduleRun` are still running, the counter
of the wait group of the `Vcr` being 3. -/
theorem shutdown_returns_before_jobs :
    ∃ s j, pexec (Process.init 0) shutdownRun = some s ∧
      s.main = MainPc.exited ∧ s.jobs = [j] ∧
      j.state.sched = SchedPc.selecting ∧ j.state.startW = WaiterPc.waiting ∧
      j.state.stopW = WaiterPc.waiting ∧
      s.heap.counter s.vcrWg = 3 ∧ s.heap.counter s.runWg = 0 ∧
      s.vcrWg ≠ s.runWg ∧ j.wg ≠ s.runWg :=
  ⟨_, _, rfl, rfl, rfl, rfl, rfl, rfl, rfl, rfl,
    (shutdown_barrier_ignores_jobs 0 shutdownRun _ rfl (by decide)).1,
    ((shutdown_barrier_ignores_jobs 0 shutdownRun _ rfl (by decide)).2.1 _
      (List.mem_singleton.mpr rfl)).2⟩

end Vcr
